import Mathlib

/-!
A shallow embedding of `generate-common.py`, a source-level deduplication
tool for Rust-like files.  File contents are modelled as `List Char`;
the two regular expressions of the script (the declaration template
`type_pattern` and the field-usage pattern `type_usage_patterns`) are
modelled as executable matching functions that follow the backtracking
behaviour of Python's `re` on these particular patterns.  The state of
the scanned directory is a list of `(filename, content)` pairs in
listing order, and `runMain` models one invocation of `main`.
-/

set_option maxRecDepth 100000

namespace GenCommon

abbrev Chars := List Char

/-- `str.toList` shorthand used for literals. -/
def lit (s : String) : Chars := s.toList

/-- Python `\w` on the ASCII range: `[A-Za-z0-9_]`. -/
def isWordChar (c : Char) : Bool := c.isAlpha || c.isDigit || c = '_'

/-- Python `\s` on the ASCII range: space, tab, newline, CR, FF, VT. -/
def isSpaceChar (c : Char) : Bool :=
  c = ' ' || c = '\t' || c = '\n' || c = '\x0d' || c = '\x0c' || c = '\x0b'

/-- Strip a literal from the front of a string, as a regex literal does. -/
def stripPre (p s : Chars) : Option Chars :=
  if p.isPrefixOf s then some (s.drop p.length) else none

/-- The five fixed `cfg_attr` header lines of `type_pattern`
(each followed by a newline), in the exact order of the source regex. -/
def hdr5 : Chars := lit
  ("#[cfg_attr(feature = \"derive_debug\", derive(Debug))]\n" ++
   "#[cfg_attr(feature = \"derive_default\", derive(Default))]\n" ++
   "#[cfg_attr(feature = \"derive_serde\", derive(Serialize, Deserialize))]\n" ++
   "#[cfg_attr(feature = \"derive_clone\", derive(Clone))]\n" ++
   "#[cfg_attr(feature = \"derive_partial_eq\", derive(PartialEq))]\n")

/-- The closing idiom `\t\tOk\(\(\)\)\n\t\}\n\}\n` of `type_pattern`. -/
def closeLit : Chars := lit "\t\tOk(())\n\t\x7d\n\x7d\n"

/-- Index of the first occurrence of `closeLit` in `s` (the lazy `.*?`
followed by the closing idiom finds the earliest possible end). -/
def findClose : Chars → Option Nat
  | [] => none
  | c :: t =>
    if closeLit.isPrefixOf (c :: t) then some 0
    else (findClose t).map (fun n => n + 1)

/-- Attempt to match `type_pattern` at the start of `s`.
Returns the total matched length (group 1, which includes the leading
`\n\n`) and the declared name (group 2).  The pattern is
`\n\n// (\w+) \.\.\.\n` + the five header lines +
`(?:pub struct|pub enum)\s+\w+.*?` + the closing idiom; since `\w`, `\s`
and the following literals are disjoint character classes, the greedy
`\w+`/`\s+` need no backtracking, and the lazy `.*?` ends at the first
occurrence of the closing idiom. -/
def matchAt (s : Chars) : Option (Nat × Chars) :=
  match stripPre (lit "\n\n// ") s with
  | none => none
  | some r =>
    let name := r.takeWhile isWordChar
    if name.isEmpty then none else
    match stripPre (lit " ...\n") (r.dropWhile isWordChar) with
    | none => none
    | some r3 =>
      match stripPre hdr5 r3 with
      | none => none
      | some r4 =>
        let kw : Option Nat :=
          if (lit "pub struct").isPrefixOf r4 then some 10
          else if (lit "pub enum").isPrefixOf r4 then some 8
          else none
        match kw with
        | none => none
        | some k =>
          let r5 := r4.drop k
          let ws := r5.takeWhile isSpaceChar
          if ws.isEmpty then none else
          let r6 := r5.dropWhile isSpaceChar
          let w := r6.takeWhile isWordChar
          if w.isEmpty then none else
          let r7 := r6.dropWhile isWordChar
          match findClose r7 with
          | none => none
          | some i =>
            some (5 + name.length + 5 + hdr5.length + k + ws.length +
                  w.length + i + closeLit.length, name)

/-- One raw match of `type_pattern` as reported by `finditer`:
start offset, end offset, full text (group 1) and name (group 2). -/
structure RawMatch where
  start_pos : Nat
  end_pos : Nat
  text : Chars
  name : Chars
deriving DecidableEq, Repr

/-- The `finditer` scan for `type_pattern`: try to match at each
position from left to right; after a match, resume at its end.
`fuel` bounds the recursion (every step consumes at least one char). -/
def scanFrom : Nat → Chars → Nat → List RawMatch
  | 0, _, _ => []
  | _ + 1, [], _ => []
  | fuel + 1, c :: t, pos =>
    match matchAt (c :: t) with
    | some (len, name) =>
      ⟨pos, pos + len, (c :: t).take len, name⟩ ::
        scanFrom fuel ((c :: t).drop len) (pos + len)
    | none => scanFrom fuel t (pos + 1)

/-- All matches of `type_pattern` in a file's content. -/
def fileMatches (content : Chars) : List RawMatch :=
  scanFrom (content.length + 1) content 0

/-! ### The usage pattern
`(?m)^[^/]*?:\s*([\w\d]+|Option<[\w\d]+>|Vec<[\w\d]+>|Option<Vec<[\w\d]+>>)\s*,`
Note `[^/]` also matches newlines (character classes ignore `DOTALL`),
so a match may start at an earlier line's start. -/

/-- Check that `alt` (a candidate for group 1) is followed by `\s*,` in
`r`; return the length consumed from `r` on success. -/
def contAfter (r : Chars) (alt : Chars) : Option Nat :=
  match (r.drop alt.length).dropWhile isSpaceChar with
  | c :: _ =>
    if c = ',' then
      some (alt.length + ((r.drop alt.length).takeWhile isSpaceChar).length + 1)
    else none
  | [] => none

/-- Alternative 1: `[\w\d]+` (a bare name). -/
def altCand1 (r : Chars) : Option Chars :=
  if (r.takeWhile isWordChar).isEmpty then none
  else some (r.takeWhile isWordChar)

/-- Alternative 2: `Option<[\w\d]+>`. -/
def altCand2 (r : Chars) : Option Chars :=
  match stripPre (lit "Option<") r with
  | none => none
  | some t =>
    if (t.takeWhile isWordChar).isEmpty then none
    else
      match t.dropWhile isWordChar with
      | c :: _ =>
        if c = '>' then some (lit "Option<" ++ t.takeWhile isWordChar ++ ['>'])
        else none
      | [] => none

/-- Alternative 3: `Vec<[\w\d]+>`. -/
def altCand3 (r : Chars) : Option Chars :=
  match stripPre (lit "Vec<") r with
  | none => none
  | some t =>
    if (t.takeWhile isWordChar).isEmpty then none
    else
      match t.dropWhile isWordChar with
      | c :: _ =>
        if c = '>' then some (lit "Vec<" ++ t.takeWhile isWordChar ++ ['>'])
        else none
      | [] => none

/-- Alternative 4: `Option<Vec<[\w\d]+>>`. -/
def altCand4 (r : Chars) : Option Chars :=
  match stripPre (lit "Option<Vec<") r with
  | none => none
  | some t =>
    if (t.takeWhile isWordChar).isEmpty then none
    else
      match t.dropWhile isWordChar with
      | c1 :: c2 :: _ =>
        if c1 = '>' then
          if c2 = '>' then
            some (lit "Option<Vec<" ++ t.takeWhile isWordChar ++ ['>', '>'])
          else none
        else none
      | _ => none

/-- Try one alternative together with its `\s*,` continuation. -/
def altWithCont (r : Chars) (cand : Option Chars) : Option (Nat × Chars) :=
  match cand with
  | none => none
  | some alt =>
    match contAfter r alt with
    | none => none
    | some n => some (n, alt)

/-- Match `\s*(alt1|alt2|alt3|alt4)\s*,` at the start of `s` (the part of
the usage pattern after the colon); alternatives are tried in the order
of the source regex, each with its continuation, as Python's
backtracking does.  Returns consumed length and group 1. -/
def usageTail (s : Chars) : Option (Nat × Chars) :=
  let ws := s.takeWhile isSpaceChar
  let r := s.dropWhile isSpaceChar
  let res :=
    match altWithCont r (altCand1 r) with
    | some p => some p
    | none =>
      match altWithCont r (altCand2 r) with
      | some p => some p
      | none =>
        match altWithCont r (altCand3 r) with
        | some p => some p
        | none => altWithCont r (altCand4 r)
  res.map (fun p => (ws.length + p.1, p.2))

/-- The lazy `[^/]*?:` scan followed by `usageTail`: consume non-`/`
characters one at a time; at each colon, succeed iff the tail matches
there (the lazy quantifier prefers the earliest such colon), otherwise
keep going; a `/` aborts the attempt.  Returns total consumed length
and group 1. -/
def usageGo : Chars → Option (Nat × Chars)
  | [] => none
  | c :: t =>
    if c = ':' then
      match usageTail t with
      | some (l, alt) => some (1 + l, alt)
      | none => (usageGo t).map (fun p => (p.1 + 1, p.2))
    else if c = '/' then none
    else (usageGo t).map (fun p => (p.1 + 1, p.2))

/-- Does `(?:>)*,?$` match `s` (used by `extract_type`)? -/
def gtCommaEnd : Chars → Bool
  | [] => true
  | [','] => true
  | '>' :: t => gtCommaEnd t
  | _ => false

/-- `extract_type`: `re.search(r'(\w+)(?:>)*,?$', type_str)` — the first
position whose maximal word run is followed only by `>`s and an optional
final comma; returns that word run. -/
def extractType : Chars → Option Chars
  | [] => none
  | c :: t =>
    if isWordChar c then
      if gtCommaEnd ((c :: t).dropWhile isWordChar) then
        some ((c :: t).takeWhile isWordChar)
      else extractType t
    else extractType t

/-- The `finditer` loop for the usage pattern: `^` restricts match
starts to line starts; after a match, scanning resumes at its end
(never a line start, since matches end just after a comma). -/
def usageScan : Nat → Chars → Bool → List Chars
  | 0, _, _ => []
  | _ + 1, [], _ => []
  | fuel + 1, c :: t, atStart =>
    if atStart then
      match usageGo (c :: t) with
      | some (len, alt) =>
        match extractType alt with
        | some b => b :: usageScan fuel ((c :: t).drop len) false
        | none => usageScan fuel ((c :: t).drop len) false
      | none => usageScan fuel t (c = '\n')
    else usageScan fuel t (c = '\n')

/-- `type_usages` of one file: every extracted base type, in order. -/
def typeUsages (content : Chars) : List Chars :=
  usageScan (content.length + 1) content true

/-! ### The catalog (`scan_rust_files`) -/

/-- `StructMatch` of the source, with the owning file name. -/
structure StructMatch where
  filename : Chars
  content : Chars
  start_pos : Nat
  end_pos : Nat
  usage_count : Nat
deriving DecidableEq, Repr

/-- Does the declared name start with an uppercase letter
(`type_name[0].isupper()`)? -/
def headUpper : Chars → Bool
  | [] => false
  | c :: _ => c.isUpper

/-- The `StructMatch` built for one raw match of one file, with
`usage_count` filled in for uppercase names and 0 for lowercase ones,
tagged with the declared name. -/
def fileOccs (fn content : Chars) : List (Chars × StructMatch) :=
  (fileMatches content).map (fun rm =>
    (rm.name,
      { filename := fn, content := rm.text, start_pos := rm.start_pos,
        end_pos := rm.end_pos,
        usage_count :=
          if headUpper rm.name then (typeUsages content).count rm.name
          else 0 }))

/-- `defaultdict(list)` keyed by declared name: append `v` at the end of
the list for key `k`, creating the key at the end on first use. -/
def addLoc (m : List (Chars × List StructMatch)) (k : Chars) (v : StructMatch) :
    List (Chars × List StructMatch) :=
  match m with
  | [] => [(k, [v])]
  | (k', vs) :: rest =>
    if k' = k then (k', vs ++ [v]) :: rest else (k', vs) :: addLoc rest k v

/-- The run-scoped result of `scan_rust_files`. -/
structure ScanState where
  typeLocations : List (Chars × List StructMatch)
  fileContents : List (Chars × Chars)
  lowercaseMatches : List StructMatch
deriving Repr

def emptyScan : ScanState := ⟨[], [], []⟩

/-- Route one tagged occurrence into `type_locations` (uppercase first
letter) or `lowercase_matches`. -/
def classifyStep (st : ScanState) (occ : Chars × StructMatch) : ScanState :=
  if headUpper occ.1 then
    { st with typeLocations := addLoc st.typeLocations occ.1 occ.2 }
  else
    { st with lowercaseMatches := st.lowercaseMatches ++ [occ.2] }

/-- Process one file: record its content, then route every match into
`type_locations` (uppercase first letter) or `lowercase_matches`. -/
def processFile (st : ScanState) (fn content : Chars) : ScanState :=
  let st := { st with fileContents := st.fileContents ++ [(fn, content)] }
  (fileOccs fn content).foldl classifyStep st

/-- Does the filename end in `.rs`? -/
def isRs (fn : Chars) : Bool := (lit ".rs").isSuffixOf fn

/-- `scan_rust_files` over the directory listing (in listing order). -/
def scanRustFiles (files : List (Chars × Chars)) : ScanState :=
  (files.filter (fun p => isRs p.1)).foldl
    (fun st p => processFile st p.1 p.2) emptyScan

/-! ### Threshold decision (`print_summary`) -/

/-- Total recorded usage of one catalog entry, as a Python `int`. -/
def sumUsage (ms : List StructMatch) : Int :=
  ms.foldl (fun a m => a + (m.usage_count : Int)) 0

/-- `frequent_types`: the entries whose summed usage meets the threshold
(dict comprehension preserves entry order). -/
def frequentTypes (locs : List (Chars × List StructMatch)) (typecount : Int) :
    List (Chars × List StructMatch) :=
  locs.filter (fun p => typecount ≤ sumUsage p.2)

/-- `print_summary` returns the frequent types, or `None` (modelled as
`none`) when there are none — it falls through an early `return`. -/
def printSummaryResult (locs : List (Chars × List StructMatch))
    (typecount : Int) : Option (List (Chars × List StructMatch)) :=
  let f := frequentTypes locs typecount
  if f.isEmpty then none else some f

/-! ### The shared module writer (`read_existing_common`,
`generate_common_file`) -/

/-- Match `// (\w+) \.\.\.\n` at the start of `s`; returns consumed
length and the name. -/
def nameAt (s : Chars) : Option (Nat × Chars) :=
  match stripPre (lit "// ") s with
  | none => none
  | some r =>
    let name := r.takeWhile isWordChar
    if name.isEmpty then none else
    match stripPre (lit " ...\n") (r.dropWhile isWordChar) with
    | none => none
    | some _ => some (3 + name.length + 5, name)

/-- `re.findall(r'// (\w+) \.\.\.\n', content)`: non-overlapping
left-to-right matches. -/
def findNamesFrom : Nat → Chars → List Chars
  | 0, _ => []
  | _ + 1, [] => []
  | fuel + 1, c :: t =>
    match nameAt (c :: t) with
    | some (len, name) => name :: findNamesFrom fuel ((c :: t).drop len)
    | none => findNamesFrom fuel t

/-- The set (here: list, membership via `contains`) of declaration names
`read_existing_common` extracts from the shared module's content. -/
def findallNames (content : Chars) : List Chars :=
  findNamesFrom (content.length + 1) content

/-- `content.rstrip('\n')`. -/
def rstripNl (s : Chars) : Chars :=
  (s.reverse.dropWhile (fun c => c = '\n')).reverse

/-- Lexicographic comparison of Python strings (code-point order). -/
def charsLt : Chars → Chars → Bool
  | [], [] => false
  | [], _ :: _ => true
  | _ :: _, [] => false
  | a :: as_, b :: bs =>
    if a < b then true else if b < a then false else charsLt as_ bs

/-- Insertion into a list sorted by name (ascending), used to model
`sorted(duplicate_types.items())`. -/
def insertByName (x : Chars × List StructMatch) :
    List (Chars × List StructMatch) → List (Chars × List StructMatch)
  | [] => [x]
  | y :: t =>
    if charsLt y.1 x.1 then y :: insertByName x t else x :: y :: t

/-- `sorted(duplicate_types.items())` (keys are distinct, so any stable
sort gives Python's result). -/
def sortByName (l : List (Chars × List StructMatch)) :
    List (Chars × List StructMatch) :=
  l.foldr insertByName []

/-- `'\n'.join(pieces)`. -/
def joinNl (l : List Chars) : Chars :=
  (l.intersperse (lit "\n")).flatten

/-- The texts appended by `generate_common_file`: the first
occurrence's text (rstripped) of each promoted name not already among
the existing names, in sorted-name order.  (`matches[0]` — promoted
entries always have at least one occurrence; an empty entry is skipped
here where Python would raise.) -/
def newPieces (existingNames : List Chars)
    (dups : List (Chars × List StructMatch)) : List Chars :=
  (sortByName dups).filterMap (fun p =>
    if existingNames.contains p.1 then none
    else match p.2 with
      | [] => none
      | m :: _ => some (rstripNl m.content))

/-- The promoted names actually appended (not already present). -/
def newNames (existingNames : List Chars)
    (dups : List (Chars × List StructMatch)) : List Chars :=
  ((sortByName dups).filter
    (fun p => existingNames.contains p.1 = false)).map Prod.fst

/-- The content `generate_common_file` writes, given the existing
content, the extracted existing names and the promoted types:
`[existing.rstrip('\n')]` then the new pieces, then `'\n'`, joined with
newlines. -/
def generateCommonContent (existingContent : Chars)
    (existingNames : List Chars)
    (dups : List (Chars × List StructMatch)) : Chars :=
  joinNl ([rstripNl existingContent] ++ newPieces existingNames dups ++
    [lit "\n"])

/-! ### The file system and the rewrite engine -/

/-- Read a file: first entry with the given name (names are unique in a
real directory listing). -/
def fsRead (fs : List (Chars × Chars)) (name : Chars) : Option Chars :=
  match fs with
  | [] => none
  | (n, c) :: t => if n = name then some c else fsRead t name

/-- Write a file: replace the entry if present, else append. -/
def fsWrite (fs : List (Chars × Chars)) (name content : Chars) :
    List (Chars × Chars) :=
  match fs with
  | [] => [(name, content)]
  | (n, c) :: t =>
    if n = name then (n, content) :: t else (n, c) :: fsWrite t name content

/-- `read_existing_common` against the file system (a missing file is an
empty module). -/
def readExistingCommon (fs : List (Chars × Chars)) (name : Chars) :
    List Chars × Chars :=
  match fsRead fs name with
  | some c => (findallNames c, c)
  | none => ([], [])

/-- `generate_common_file` as a file-system transformation. -/
def generateCommonFile (fs : List (Chars × Chars))
    (dups : List (Chars × List StructMatch)) (outName : Chars) :
    List (Chars × Chars) :=
  let ec := readExistingCommon fs outName
  fsWrite fs outName (generateCommonContent ec.2 ec.1 dups)

/-- `defaultdict(list)` keyed by filename for `remove_duplicates`. -/
def addPos (m : List (Chars × List (Nat × Nat))) (fn : Chars) (p : Nat × Nat) :
    List (Chars × List (Nat × Nat)) :=
  match m with
  | [] => [(fn, [p])]
  | (k, vs) :: rest =>
    if k = fn then (k, vs ++ [p]) :: rest else (k, vs) :: addPos rest fn p

/-- Span accumulation of `remove_duplicates`: positions of every
promoted occurrence, then of every lowercase occurrence, grouped by
filename in first-touch order. -/
def filePositions (dups : List (Chars × List StructMatch))
    (lows : List StructMatch) : List (Chars × List (Nat × Nat)) :=
  let m1 := dups.foldl (fun m e =>
    e.2.foldl (fun m occ => addPos m occ.filename (occ.start_pos, occ.end_pos)) m) []
  lows.foldl (fun m occ => addPos m occ.filename (occ.start_pos, occ.end_pos)) m1

/-- Is span `q` (start, end) lexicographically greater-or-equal to `p`?
Used for `positions.sort(reverse=True)`. -/
def spanGe (p q : Nat × Nat) : Bool :=
  decide (q.1 < p.1) || (decide (p.1 = q.1) && decide (q.2 ≤ p.2))

def insertSpanDesc (x : Nat × Nat) : List (Nat × Nat) → List (Nat × Nat)
  | [] => [x]
  | y :: t => if spanGe y x then y :: insertSpanDesc x t else x :: y :: t

/-- `positions.sort(reverse=True)`: descending lexicographic order. -/
def sortSpansDesc (l : List (Nat × Nat)) : List (Nat × Nat) :=
  l.foldr insertSpanDesc []

/-- `new_content[:start] + new_content[end:]`. -/
def splice (content : Chars) (p : Nat × Nat) : Chars :=
  content.take p.1 ++ content.drop p.2

/-- Apply all deletions of one file, in descending start order, exactly
as `remove_duplicates` does. -/
def applyDeletions (content : Chars) (poss : List (Nat × Nat)) : Chars :=
  (sortSpansDesc poss).foldl splice content

/-- `remove_duplicates` as a file-system transformation: for each file
with recorded positions, splice the spans out of the scan-time content
and write the result iff it differs from the scan-time content. -/
def removeDuplicates (fs : List (Chars × Chars))
    (fileContents : List (Chars × Chars))
    (dups : List (Chars × List StructMatch)) (lows : List StructMatch) :
    List (Chars × Chars) :=
  (filePositions dups lows).foldl (fun fs e =>
    if e.2.isEmpty then fs else
    match fsRead fileContents e.1 with
    | none => fs
    | some content =>
      let nc := applyDeletions content e.2
      if nc = content then fs else fsWrite fs e.1 nc) fs

/-- The shared module's file name. -/
def commonName : Chars := lit "common.rs"

/-- One invocation of `main` on a directory state, returning the exit
code and the final directory state.  When `print_summary` returns `None`
(no qualifying uppercase type) but lowercase matches exist,
`remove_duplicates(file_contents, None, ...)` raises `AttributeError`
before touching any file; `main` catches it and returns 1. -/
def runMain (fs : List (Chars × Chars)) (typecount : Int) :
    Nat × List (Chars × Chars) :=
  let st := scanRustFiles fs
  let freq := printSummaryResult st.typeLocations typecount
  if freq.isSome || !st.lowercaseMatches.isEmpty then
    match freq with
    | some f =>
      let fs1 := generateCommonFile fs f commonName
      let fs2 := removeDuplicates fs1 st.fileContents f st.lowercaseMatches
      (0, fs2)
    | none => (1, fs)
  else (0, fs)

/-! ### Derived notions used by the specification's properties -/

/-- The byte span of a raw match. -/
def spanOf (m : RawMatch) : Nat × Nat := (m.start_pos, m.end_pos)

/-- Two byte spans do not overlap. -/
def disjointSpan (p q : Nat × Nat) : Prop := p.2 ≤ q.1 ∨ q.2 ≤ p.1

instance (p q : Nat × Nat) : Decidable (disjointSpan p q) := by
  unfold disjointSpan
  infer_instance

/-- Is byte index `i` inside one of the spans? -/
def coveredBy (i : Nat) (poss : List (Nat × Nat)) : Bool :=
  poss.any (fun p => decide (p.1 ≤ i) && decide (i < p.2))

/-- Keep the characters of `c` (whose indices start at `k`) whose index
lies in none of the spans. -/
def eraseFrom (k : Nat) (c : Chars) (poss : List (Nat × Nat)) : Chars :=
  ((c.enumFrom k).filter (fun ic => !coveredBy ic.1 poss)).map Prod.snd

/-- Order-free deletion: remove exactly the characters covered by some
span, keeping everything else.  This is "deleting the spans" read as a
set of positions, the reference point for deletion-order invariance. -/
def eraseSpans (c : Chars) (poss : List (Nat × Nat)) : Chars :=
  eraseFrom 0 c poss

/-- Number of trailing newline characters. -/
def trailingNl (s : Chars) : Nat :=
  (s.reverse.takeWhile (fun c => c = '\n')).length

/-- A character that can appear in group 1 of the usage pattern. -/
def altChar (c : Char) : Prop := isWordChar c = true ∨ c = '<' ∨ c = '>'

instance (c : Char) : Decidable (altChar c) := by
  unfold altChar
  infer_instance

/-- First-match lookup in the per-file position map (Python dict
access). -/
def posLookup (m : List (Chars × List (Nat × Nat))) (fn : Chars) :
    List (Nat × Nat) :=
  match m with
  | [] => []
  | (k, vs) :: rest => if k = fn then vs else posLookup rest fn

/-- All catalog occurrences tagged with their declared name, in catalog
order. -/
def taggedLocs (locs : List (Chars × List StructMatch)) :
    List (Chars × StructMatch) :=
  locs.flatMap (fun p => p.2.map (fun m => (p.1, m)))

/-- The per-file step of `remove_duplicates` (the body of its `for
filename, positions` loop), named so the fold can be reasoned about
entry by entry. -/
def rdStep (fileContents : List (Chars × Chars))
    (fs : List (Chars × Chars)) (e : Chars × List (Nat × Nat)) :
    List (Chars × Chars) :=
  if e.2.isEmpty then fs else
  match fsRead fileContents e.1 with
  | none => fs
  | some content =>
    let nc := applyDeletions content e.2
    if nc = content then fs else fsWrite fs e.1 nc

/-! ### Concrete test vectors -/

/-- A minimal well-formed declaration block for `Widget` (leading blank
line, the five header lines, introducer, closing idiom), no field
usages. -/
def blockW : Chars :=
  lit "\n\n// Widget ...\n" ++ hdr5 ++
  lit "pub struct Widget\t\tOk(())\n\t\x7d\n\x7d\n"

/-- A well-formed block for lowercase-named `helper`. -/
def blockHelper : Chars :=
  lit "\n\n// helper ...\n" ++ hdr5 ++
  lit "pub struct helper\t\tOk(())\n\t\x7d\n\x7d\n"

/-- A well-formed block for `Bar` whose body contains the field line
`foo: Bar,`. -/
def blockBar : Chars :=
  lit "\n\n// Bar ...\n" ++ hdr5 ++
  lit "pub struct Bar \x7b\nfoo: Bar,\n\t\tOk(())\n\t\x7d\n\x7d\n"

/-- A hand-edited prior shared-module content: the `Widget` block twice,
followed by three trailing newlines. -/
def dupModule : Chars := blockW ++ blockW ++ lit "\n\n"

/-- An arbitrary promoted occurrence of `Widget`. -/
def occW : StructMatch :=
  ⟨lit "x.rs", blockW, 0, blockW.length, 0⟩

/-- The `Widget` block followed by one field line that uses `Widget`. -/
def blockWU : Chars := blockW ++ lit "x: Widget,\n"

/-- A well-formed block for `Gadget`. -/
def blockG : Chars :=
  lit "\n\n// Gadget ...\n" ++ hdr5 ++
  lit "pub struct Gadget\t\tOk(())\n\t\x7d\n\x7d\n"

/-- An arbitrary promoted occurrence of `Gadget`. -/
def occG : StructMatch :=
  ⟨lit "y.rs", blockG, 0, blockG.length, 0⟩

/-! ## Theorems for the claims -/

/-- **C3** (the code at the spec's scenario): a directory holding one
file with a single lowercase declaration `helper` and no qualifying
uppercase type.  The scan does put the `helper` occurrence in the
violations list, but `print_summary` returns `None`, so
`remove_duplicates(file_contents, None, ...)` raises `AttributeError`;
`main` catches it and exits 1 with the file system untouched — the
violation is *not* removed, contradicting the claim that violations are
always removed regardless of whether any uppercase type qualifies. -/
theorem C3_helper_not_removed :
    (scanRustFiles [(lit "a.rs", blockHelper)]).lowercaseMatches ≠ [] ∧
    printSummaryResult
      (scanRustFiles [(lit "a.rs", blockHelper)]).typeLocations 1 = none ∧
    runMain [(lit "a.rs", blockHelper)] 1 = (1, [(lit "a.rs", blockHelper)]) := by
  decide

/-- **C2, counterexample**: with threshold `-1` (the CLI accepts any
Python `int`), the zero-usage type `Widget` *is* promoted although the
threshold is not 0 — refuting "it is promoted only when the threshold
is 0". -/
theorem C2_counterexample :
    (scanRustFiles [(lit "a.rs", blockW)]).typeLocations.map
        (fun p => (p.1, sumUsage p.2)) = [(lit "Widget", 0)] ∧
    (frequentTypes (scanRustFiles [(lit "a.rs", blockW)]).typeLocations
        (-1)).map Prod.fst = [lit "Widget"] ∧
    (-1 : Int) ≠ 0 := by
  decide

/-- **C1, counterexample**: both runs at threshold 0 succeed (exit 0),
yet the second run changes the shared module again — it deletes the
`Widget` declaration that the first run promoted into `common.rs`,
leaving just `"\n\n"`.  The second run is not a no-op, refuting
idempotence as stated (for every threshold). -/
theorem C1_counterexample :
    (runMain [(lit "a.rs", blockW)] 0).1 = 0 ∧
    (runMain (runMain [(lit "a.rs", blockW)] 0).2 0).1 = 0 ∧
    fsRead (runMain (runMain [(lit "a.rs", blockW)] 0).2 0).2 commonName =
      some (lit "\n\n") ∧
    fsRead (runMain (runMain [(lit "a.rs", blockW)] 0).2 0).2 commonName ≠
      fsRead (runMain [(lit "a.rs", blockW)] 0).2 commonName := by
  decide

/-- **C4, counterexample**: for the prior content `dupModule` (two
`Widget` declarations and three trailing newlines) and the promoted set
`{Widget}` (already present, so nothing is appended), the writer's
output is *not* an extension of the prior content (a trailing newline
is lost, so the previously appended content is altered), and afterwards
the module still holds two declarations named `Widget` — refuting both
"never rewrites … or otherwise alters the previously appended content"
and "afterwards no two declarations in the module have the same
name". -/
theorem C4_counterexample :
    dupModule.isPrefixOf
      (generateCommonContent dupModule (findallNames dupModule)
        [(lit "Widget", [occW])]) = false ∧
    ¬ List.Nodup ((fileMatches
      (generateCommonContent dupModule (findallNames dupModule)
        [(lit "Widget", [occW])])).map RawMatch.name) := by
  decide

/-! ### Structure of a successful `type_pattern` match -/

theorem stripPre_some {p s r : Chars} (h : stripPre p s = some r) :
    s = p ++ r := by
  unfold stripPre at h
  split at h
  · next hp =>
    obtain ⟨t, ht⟩ := List.isPrefixOf_iff_prefix.mp hp
    obtain rfl := Option.some.inj h
    rw [← ht, List.drop_left]
  · exact absurd h (by simp)

theorem findClose_some :
    ∀ {s : Chars} {i : Nat}, findClose s = some i →
      ∃ pre rest, s = pre ++ closeLit ++ rest ∧ pre.length = i := by
  intro s
  induction s with
  | nil => intro i h; simp [findClose] at h
  | cons c t ih =>
    intro i h
    rw [findClose] at h
    split at h
    · next hp =>
      obtain ⟨rest, hrest⟩ := List.isPrefixOf_iff_prefix.mp hp
      obtain rfl := Option.some.inj h
      exact ⟨[], rest, by simp [← hrest], rfl⟩
    · obtain ⟨j, hj, rfl⟩ := Option.map_eq_some'.mp h
      obtain ⟨pre, rest, hdecomp, hlen⟩ := ih hj
      exact ⟨c :: pre, rest, by simp [hdecomp], by simp [hlen]⟩

theorem matchAt_some {s : Chars} {len : Nat} {nm : Chars}
    (h : matchAt s = some (len, nm)) :
    1 ≤ len ∧ len ≤ s.length ∧ s.take 2 = lit "\n\n" ∧ nm ≠ [] := by
  unfold matchAt at h
  split at h
  · exact absurd h (by simp)
  · next r h1 =>
    have hs := stripPre_some h1
    simp only [] at h
    split at h
    · exact absurd h (by simp)
    · next hname =>
      split at h
      · exact absurd h (by simp)
      · next r3 h3 =>
        have hr : r = r.takeWhile isWordChar ++ (lit " ...\n" ++ r3) := by
          rw [← stripPre_some h3, List.takeWhile_append_dropWhile]
        split at h
        · exact absurd h (by simp)
        · next r4 h4 =>
          have hr3 := stripPre_some h4
          split at h
          · exact absurd h (by simp)
          · next k hk =>
            have hkw : k ≤ r4.length := by
              split at hk
              · next hps =>
                obtain ⟨t4, ht4⟩ := List.isPrefixOf_iff_prefix.mp hps
                obtain rfl := Option.some.inj hk
                have h10 : (lit "pub struct").length = 10 := by decide
                rw [← ht4, List.length_append, h10]
                omega
              · split at hk
                · next hpe =>
                  obtain ⟨t4, ht4⟩ := List.isPrefixOf_iff_prefix.mp hpe
                  obtain rfl := Option.some.inj hk
                  have h8 : (lit "pub enum").length = 8 := by decide
                  rw [← ht4, List.length_append, h8]
                  omega
                · exact absurd hk (by simp)
            split at h
            · exact absurd h (by simp)
            · next hws =>
              split at h
              · exact absurd h (by simp)
              · next hw =>
                split at h
                · exact absurd h (by simp)
                · next i hi =>
                  obtain ⟨pre, rest, hr7, hpre⟩ := findClose_some hi
                  obtain ⟨hlen, hnm⟩ := Prod.ext_iff.mp (Option.some.inj h)
                  dsimp only at hlen hnm
                  subst hnm
                  have e0 : (lit "\n\n// ").length = 5 := by decide
                  have e1 : (lit " ...\n").length = 5 := by decide
                  have l1 : s.length = 5 + r.length := by
                    rw [hs, List.length_append, e0]
                  have l2 : r.length =
                      (r.takeWhile isWordChar).length + (5 + r3.length) := by
                    conv_lhs => rw [hr]
                    rw [List.length_append, List.length_append, e1]
                  have l3 : r3.length = hdr5.length + r4.length := by
                    rw [hr3, List.length_append]
                  have l4 : (r4.drop k).length = r4.length - k := by
                    rw [List.length_drop]
                  have l5 : (r4.drop k).length =
                      ((r4.drop k).takeWhile isSpaceChar).length +
                      ((r4.drop k).dropWhile isSpaceChar).length := by
                    conv_lhs => rw [← List.takeWhile_append_dropWhile
                      (p := isSpaceChar) (l := r4.drop k)]
                    rw [List.length_append]
                  have l6 : ((r4.drop k).dropWhile isSpaceChar).length =
                      (((r4.drop k).dropWhile isSpaceChar).takeWhile isWordChar).length +
                      (((r4.drop k).dropWhile isSpaceChar).dropWhile isWordChar).length := by
                    conv_lhs => rw [← List.takeWhile_append_dropWhile
                      (p := isWordChar) (l := (r4.drop k).dropWhile isSpaceChar)]
                    rw [List.length_append]
                  have l7 : (((r4.drop k).dropWhile isSpaceChar).dropWhile
                      isWordChar).length = i + (closeLit.length + rest.length) := by
                    rw [hr7, List.length_append, List.length_append, hpre]
                    omega
                  refine ⟨by omega, by omega, ?_, ?_⟩
                  · rw [hs]
                    rfl
                  · intro hne
                    rw [hne] at hname
                    exact hname rfl

theorem scanFrom_bounds :
    ∀ (fuel : Nat) (s : Chars) (pos : Nat) (m : RawMatch),
      m ∈ scanFrom fuel s pos →
      pos ≤ m.start_pos ∧ m.start_pos < m.end_pos ∧
        m.end_pos ≤ pos + s.length := by
  intro fuel
  induction fuel with
  | zero => intro s pos m hm; simp [scanFrom] at hm
  | succ n ih =>
    intro s pos m hm
    match s with
    | [] => simp [scanFrom] at hm
    | c :: t =>
      rw [scanFrom] at hm
      split at hm
      · next len name heq =>
        have hb := matchAt_some heq
        have h1 := hb.1
        have h2 := hb.2.1
        rcases List.mem_cons.mp hm with rfl | hm'
        · dsimp only
          omega
        · have := ih _ _ _ hm'
          have hdl : ((c :: t).drop len).length = (c :: t).length - len := by
            rw [List.length_drop]
          omega
      · have := ih _ _ _ hm
        have hct : (c :: t).length = t.length + 1 := rfl
        omega

theorem scanFrom_pairwise :
    ∀ (fuel : Nat) (s : Chars) (pos : Nat),
      List.Pairwise (fun a b => a.end_pos ≤ b.start_pos)
        (scanFrom fuel s pos) := by
  intro fuel
  induction fuel with
  | zero => intro s pos; simp [scanFrom]
  | succ n ih =>
    intro s pos
    match s with
    | [] => simp [scanFrom]
    | c :: t =>
      rw [scanFrom]
      split
      · next len name heq =>
        refine List.Pairwise.cons ?_ (ih _ _)
        intro b hb
        exact (scanFrom_bounds _ _ _ _ hb).1
      · exact ih _ _

theorem scanFrom_matchAt :
    ∀ (fuel : Nat) (s : Chars) (pos : Nat) (m : RawMatch),
      m ∈ scanFrom fuel s pos →
      matchAt (s.drop (m.start_pos - pos)) =
        some (m.end_pos - m.start_pos, m.name) ∧
      m.text = (s.drop (m.start_pos - pos)).take (m.end_pos - m.start_pos) := by
  intro fuel
  induction fuel with
  | zero => intro s pos m hm; simp [scanFrom] at hm
  | succ n ih =>
    intro s pos m hm
    match s with
    | [] => simp [scanFrom] at hm
    | c :: t =>
      rw [scanFrom] at hm
      split at hm
      · next len name heq =>
        rcases List.mem_cons.mp hm with rfl | hm'
        · simpa using heq
        · have hb := scanFrom_bounds _ _ _ _ hm'
          have := ih _ _ _ hm'
          rw [List.drop_drop] at this
          have harith : len + (m.start_pos - (pos + len)) = m.start_pos - pos := by
            omega
          rwa [harith] at this
      · have hb := scanFrom_bounds _ _ _ _ hm
        have := ih _ _ _ hm
        have harith : m.start_pos - (pos + 1) + 1 = m.start_pos - pos := by
          omega
        rw [show (t.drop (m.start_pos - (pos + 1))) =
            ((c :: t).drop (m.start_pos - (pos + 1) + 1)) from rfl] at this
        rwa [harith] at this

/-- **C10**: every match of the Declaration Matcher is immediately
preceded by two consecutive newline characters (the match itself begins
with them); and a declaration with the correct five-line annotation
header and closing idiom that starts at byte offset 0, or is preceded
by a single newline only, is never matched (while the same block behind
a blank line is matched as `Widget`). -/
theorem C10_match_requires_blank_line :
    (∀ (content : Chars), ∀ m ∈ fileMatches content,
      (content.drop m.start_pos).take 2 = lit "\n\n") ∧
    (fileMatches blockW).map RawMatch.name = [lit "Widget"] ∧
    fileMatches (blockW.drop 2) = [] ∧
    fileMatches (blockW.drop 1) = [] := by
  refine ⟨?_, by decide, by decide, by decide⟩
  intro content m hm
  have h := (scanFrom_matchAt _ _ _ m hm).1
  rw [Nat.sub_zero] at h
  exact (matchAt_some h).2.2.1

/-- Witness for C10: the `Widget` block's match in `blockW` indeed sits
behind two newlines. -/
theorem C10_witness :
    (blockW.drop (0 : Nat)).take 2 = lit "\n\n" :=
  C10_match_requires_blank_line.1 blockW
    ⟨0, blockW.length, blockW, lit "Widget"⟩ (by decide)

/-! ### Deletion-order invariance machinery -/

theorem insertSpanDesc_perm (x : Nat × Nat) (l : List (Nat × Nat)) :
    (insertSpanDesc x l).Perm (x :: l) := by
  induction l with
  | nil => exact List.Perm.refl _
  | cons y t ih =>
    rw [insertSpanDesc]
    split
    · exact ((ih.cons y).trans (List.Perm.swap x y t))
    · exact List.Perm.refl _

theorem sortSpansDesc_perm (l : List (Nat × Nat)) :
    (sortSpansDesc l).Perm l := by
  induction l with
  | nil => exact List.Perm.refl _
  | cons x t ih =>
    exact (insertSpanDesc_perm x (sortSpansDesc t)).trans (ih.cons x)

theorem insertSpanDesc_sorted {x : Nat × Nat} {l : List (Nat × Nat)}
    (h : List.Pairwise (fun a b : Nat × Nat => b.1 ≤ a.1) l) :
    List.Pairwise (fun a b : Nat × Nat => b.1 ≤ a.1) (insertSpanDesc x l) := by
  induction l with
  | nil => exact List.pairwise_singleton _ _
  | cons y t ih =>
    rw [insertSpanDesc]
    rcases List.pairwise_cons.mp h with ⟨hy, ht⟩
    split
    · next hge =>
      have hxy : x.1 ≤ y.1 := by
        simp only [spanGe, Bool.or_eq_true, Bool.and_eq_true,
          decide_eq_true_eq] at hge
        omega
      refine List.pairwise_cons.mpr ⟨?_, ih ht⟩
      intro z hz
      rcases List.mem_cons.mp ((insertSpanDesc_perm x t).mem_iff.mp hz) with
        rfl | hzt
      · exact hxy
      · exact hy z hzt
    · next hge =>
      have hyx : y.1 ≤ x.1 := by
        simp only [spanGe, Bool.or_eq_true, Bool.and_eq_true,
          decide_eq_true_eq] at hge
        omega
      refine List.pairwise_cons.mpr ⟨?_, h⟩
      intro z hz
      rcases List.mem_cons.mp hz with rfl | hzt
      · exact hyx
      · exact le_trans (hy z hzt) hyx

theorem sortSpansDesc_sorted (l : List (Nat × Nat)) :
    List.Pairwise (fun a b : Nat × Nat => b.1 ≤ a.1) (sortSpansDesc l) := by
  induction l with
  | nil => exact List.Pairwise.nil
  | cons x t ih => exact insertSpanDesc_sorted ih

theorem any_of_perm {α : Type} {l l' : List α} (h : l.Perm l')
    (p : α → Bool) : l.any p = l'.any p := by
  induction h with
  | nil => rfl
  | cons a _ ih => simp [List.any_cons, ih]
  | swap a b l => simp [List.any_cons, Bool.or_left_comm]
  | trans _ _ ih1 ih2 => exact ih1.trans ih2

theorem coveredBy_perm {poss poss' : List (Nat × Nat)}
    (h : poss.Perm poss') (i : Nat) :
    coveredBy i poss = coveredBy i poss' :=
  any_of_perm h _

theorem eraseFrom_append (k : Nat) (u v : Chars) (poss : List (Nat × Nat)) :
    eraseFrom k (u ++ v) poss =
      eraseFrom k u poss ++ eraseFrom (k + u.length) v poss := by
  simp [eraseFrom, List.enumFrom_append, List.filter_append]

theorem eraseFrom_of_forall_below {k : Nat} {c : Chars}
    {poss : List (Nat × Nat)} (h : ∀ p ∈ poss, p.2 ≤ k) :
    eraseFrom k c poss = c := by
  induction c generalizing k with
  | nil => rfl
  | cons x t ih =>
    have hcov : coveredBy k poss = false := by
      simp only [coveredBy, List.any_eq_false, Bool.and_eq_true,
        decide_eq_true_eq, not_and]
      intro p hp _
      have := h p hp
      omega
    have ht : eraseFrom (k + 1) t poss = t :=
      ih (fun p hp => le_trans (h p hp) (Nat.le_succ k))
    simp only [eraseFrom, List.enumFrom_cons, List.filter_cons, hcov,
      Bool.not_false, if_pos, List.map_cons] at *
    simpa [eraseFrom] using ht

theorem eraseFrom_of_mem_covering {k : Nat} {c : Chars}
    {poss : List (Nat × Nat)} {s e : Nat} (hmem : (s, e) ∈ poss)
    (hs : s ≤ k) (he : k + c.length ≤ e) :
    eraseFrom k c poss = [] := by
  induction c generalizing k with
  | nil => rfl
  | cons x t ih =>
    have hcov : coveredBy k poss = true := by
      simp only [coveredBy, List.any_eq_true]
      refine ⟨(s, e), hmem, ?_⟩
      simp only [Bool.and_eq_true, decide_eq_true_eq]
      constructor
      · exact hs
      · have : (x :: t).length = t.length + 1 := rfl
        omega
    have ht : eraseFrom (k + 1) t poss = [] := by
      apply ih (Nat.le_succ_of_le hs)
      have : (x :: t).length = t.length + 1 := rfl
      omega
    simp only [eraseFrom, List.enumFrom_cons, List.filter_cons, hcov,
      Bool.not_true, if_neg, Bool.false_eq_true, not_false_iff] at *
    simpa [eraseFrom] using ht

theorem eraseFrom_congr {k : Nat} {c : Chars} {poss poss' : List (Nat × Nat)}
    (h : ∀ i, k ≤ i → i < k + c.length → coveredBy i poss = coveredBy i poss') :
    eraseFrom k c poss = eraseFrom k c poss' := by
  unfold eraseFrom
  congr 1
  apply List.filter_congr
  intro x hx
  obtain ⟨i, ch⟩ := x
  obtain ⟨h1, h2, -⟩ := List.mem_enumFrom hx
  simp only []
  rw [h i h1 h2]

theorem eraseSpans_nil (c : Chars) : eraseSpans c [] = c :=
  eraseFrom_of_forall_below (by simp)

theorem splice_length {c : Chars} {s e : Nat} (hse : s ≤ e)
    (hec : e ≤ c.length) :
    (splice c (s, e)).length = c.length - (e - s) := by
  simp only [splice, List.length_append, List.length_take, List.length_drop]
  omega

theorem eraseSpans_splice_cons {c : Chars} {s e : Nat}
    {rest : List (Nat × Nat)} (hse : s < e) (hec : e ≤ c.length)
    (hrest : ∀ p ∈ rest, p.2 ≤ s) :
    eraseSpans (splice c (s, e)) rest = eraseSpans c ((s, e) :: rest) := by
  have hsc : s ≤ c.length := le_trans (le_of_lt hse) hec
  have hlt : (c.take s).length = s := by
    rw [List.length_take]
    omega
  have hmidlen : ((c.drop s).take (e - s)).length = e - s := by
    rw [List.length_take, List.length_drop]
    omega
  have hc : c = c.take s ++ ((c.drop s).take (e - s) ++ c.drop e) := by
    have h1 : (c.drop s).drop (e - s) = c.drop e := by
      rw [List.drop_drop]
      congr 1
      omega
    rw [← h1, List.take_append_drop, List.take_append_drop]
  -- left side
  have hL : eraseSpans (splice c (s, e)) rest =
      eraseFrom 0 (c.take s) rest ++ c.drop e := by
    unfold eraseSpans splice
    rw [eraseFrom_append, hlt]
    simp only [Nat.zero_add]
    congr 1
    exact eraseFrom_of_forall_below (by intro p hp; exact hrest p hp)
  -- right side
  have hR : eraseSpans c ((s, e) :: rest) =
      eraseFrom 0 (c.take s) rest ++ c.drop e := by
    unfold eraseSpans
    conv_lhs => rw [hc]
    rw [eraseFrom_append, eraseFrom_append, hlt, hmidlen]
    simp only [Nat.zero_add]
    have hmid : eraseFrom s ((c.drop s).take (e - s)) ((s, e) :: rest) = [] := by
      apply eraseFrom_of_mem_covering (List.mem_cons_self _ _) (le_refl s)
      rw [hmidlen]
      omega
    have hafter : eraseFrom (s + (e - s)) (c.drop e) ((s, e) :: rest) =
        c.drop e := by
      apply eraseFrom_of_forall_below
      intro p hp
      rcases List.mem_cons.mp hp with rfl | hp'
      · omega
      · have := hrest p hp'
        omega
    have hbefore : eraseFrom 0 (c.take s) ((s, e) :: rest) =
        eraseFrom 0 (c.take s) rest := by
      apply eraseFrom_congr
      intro i _ hi
      rw [hlt] at hi
      simp only [coveredBy, List.any_cons]
      have : (decide (s ≤ i) && decide (i < e)) = false := by
        simp only [Bool.and_eq_false_iff, decide_eq_false_iff_not]
        left
        omega
      rw [this, Bool.false_or]
    rw [hmid, hafter, hbefore, List.nil_append]
  rw [hL, hR]

theorem foldl_splice_sorted_eq_erase :
    ∀ (L : List (Nat × Nat)) (c : Chars),
      List.Pairwise (fun a b : Nat × Nat => b.1 ≤ a.1) L →
      List.Pairwise disjointSpan L →
      (∀ p ∈ L, p.1 < p.2) → (∀ p ∈ L, p.2 ≤ c.length) →
      L.foldl splice c = eraseSpans c L := by
  intro L
  induction L with
  | nil => intro c _ _ _ _; exact (eraseSpans_nil c).symm
  | cons hd rest ih =>
    intro c hsort hdis hstrict hbound
    obtain ⟨s, e⟩ := hd
    rcases List.pairwise_cons.mp hsort with ⟨hsort1, hsort2⟩
    rcases List.pairwise_cons.mp hdis with ⟨hdis1, hdis2⟩
    have hse : s < e := hstrict (s, e) (List.mem_cons_self _ _)
    have hec : e ≤ c.length := hbound (s, e) (List.mem_cons_self _ _)
    have hrest : ∀ p ∈ rest, p.2 ≤ s := by
      intro p hp
      have h1 : p.1 ≤ s := hsort1 p hp
      rcases hdis1 p hp with h2 | h2
      · omega
      · exact h2
    have hlen : (splice c (s, e)).length = c.length - (e - s) :=
      splice_length (le_of_lt hse) hec
    have hbound' : ∀ p ∈ rest, p.2 ≤ (splice c (s, e)).length := by
      intro p hp
      rw [hlen]
      have := hrest p hp
      omega
    rw [List.foldl_cons, ih (splice c (s, e)) hsort2 hdis2
      (fun p hp => hstrict p (List.mem_cons_of_mem _ hp)) hbound',
      eraseSpans_splice_cons hse hec hrest]

theorem applyDeletions_eq_eraseSpans {c : Chars} {poss : List (Nat × Nat)}
    (h1 : ∀ p ∈ poss, p.1 < p.2) (h2 : ∀ p ∈ poss, p.2 ≤ c.length)
    (h3 : List.Pairwise disjointSpan poss) :
    applyDeletions c poss = eraseSpans c poss := by
  have hperm := sortSpansDesc_perm poss
  have hsym : ∀ {x y : Nat × Nat}, disjointSpan x y → disjointSpan y x := by
    intro x y h
    unfold disjointSpan at *
    tauto
  have hdis : List.Pairwise disjointSpan (sortSpansDesc poss) :=
    (List.Perm.pairwise_iff hsym hperm).mpr h3
  unfold applyDeletions
  rw [foldl_splice_sorted_eq_erase _ _ (sortSpansDesc_sorted poss) hdis
    (fun p hp => h1 p (hperm.mem_iff.mp hp))
    (fun p hp => h2 p (hperm.mem_iff.mp hp))]
  exact eraseFrom_congr (fun i _ _ => coveredBy_perm hperm i)

theorem fileMatches_bounds {content : Chars} :
    ∀ m ∈ fileMatches content,
      m.start_pos < m.end_pos ∧ m.end_pos ≤ content.length := by
  intro m hm
  have := scanFrom_bounds _ _ _ m hm
  exact ⟨this.2.1, by have := this.2.2; omega⟩

theorem fileMatches_span_pairwise (content : Chars) :
    List.Pairwise disjointSpan ((fileMatches content).map spanOf) := by
  rw [List.pairwise_map]
  apply List.Pairwise.imp ?_ (scanFrom_pairwise _ _ _)
  intro a b h
  exact Or.inl h

/-- **C5**: the spans matched by the Declaration Matcher in one file are
pairwise disjoint; and for pairwise disjoint, in-bounds, nonempty spans
(as matched spans are), the Rewrite Engine's descending-start deletion
equals order-free set deletion (`eraseSpans`), and its result does not
change under any permutation of the span list. -/
theorem C5_span_disjoint_order_invariant :
    (∀ (content : Chars),
      List.Pairwise disjointSpan ((fileMatches content).map spanOf)) ∧
    (∀ (content : Chars) (poss poss' : List (Nat × Nat)),
      (∀ p ∈ poss, p.1 < p.2) → (∀ p ∈ poss, p.2 ≤ content.length) →
      List.Pairwise disjointSpan poss → poss.Perm poss' →
      applyDeletions content poss = eraseSpans content poss ∧
      applyDeletions content poss' = applyDeletions content poss) := by
  constructor
  · exact fileMatches_span_pairwise
  · intro content poss poss' h1 h2 h3 hperm
    have hsym : ∀ {x y : Nat × Nat}, disjointSpan x y → disjointSpan y x := by
      intro x y h
      unfold disjointSpan at *
      tauto
    have h1' : ∀ p ∈ poss', p.1 < p.2 :=
      fun p hp => h1 p (hperm.mem_iff.mpr hp)
    have h2' : ∀ p ∈ poss', p.2 ≤ content.length :=
      fun p hp => h2 p (hperm.mem_iff.mpr hp)
    have h3' : List.Pairwise disjointSpan poss' :=
      (List.Perm.pairwise_iff hsym hperm).mp h3
    refine ⟨applyDeletions_eq_eraseSpans h1 h2 h3, ?_⟩
    rw [applyDeletions_eq_eraseSpans h1' h2' h3',
      applyDeletions_eq_eraseSpans h1 h2 h3]
    exact eraseFrom_congr (fun i _ _ => coveredBy_perm hperm.symm i)

/-- Witness for C5 at concrete inputs: the matched spans of `blockW`,
and deletion of two disjoint spans from `"abcdef"` in either order. -/
theorem C5_witness :
    List.Pairwise disjointSpan ((fileMatches blockW).map spanOf) ∧
    (applyDeletions (lit "abcdef") [(1, 2), (3, 4)] =
        eraseSpans (lit "abcdef") [(1, 2), (3, 4)] ∧
      applyDeletions (lit "abcdef") [(3, 4), (1, 2)] =
        applyDeletions (lit "abcdef") [(1, 2), (3, 4)]) :=
  ⟨C5_span_disjoint_order_invariant.1 blockW,
   C5_span_disjoint_order_invariant.2 (lit "abcdef") [(1, 2), (3, 4)]
     [(3, 4), (1, 2)] (by decide) (by decide) (by decide) (by decide)⟩

theorem foldl_splice_length :
    ∀ (L : List (Nat × Nat)) (c : Chars),
      List.Pairwise (fun a b : Nat × Nat => b.1 ≤ a.1) L →
      List.Pairwise disjointSpan L →
      (∀ p ∈ L, p.1 < p.2) → (∀ p ∈ L, p.2 ≤ c.length) →
      (L.foldl splice c).length =
        c.length - (L.map (fun p => p.2 - p.1)).sum := by
  intro L
  induction L with
  | nil => intro c _ _ _ _; simp
  | cons hd rest ih =>
    intro c hsort hdis hstrict hbound
    obtain ⟨s, e⟩ := hd
    rcases List.pairwise_cons.mp hsort with ⟨hsort1, hsort2⟩
    rcases List.pairwise_cons.mp hdis with ⟨hdis1, hdis2⟩
    have hse : s < e := hstrict (s, e) (List.mem_cons_self _ _)
    have hec : e ≤ c.length := hbound (s, e) (List.mem_cons_self _ _)
    have hrest : ∀ p ∈ rest, p.2 ≤ s := by
      intro p hp
      have h1 : p.1 ≤ s := hsort1 p hp
      rcases hdis1 p hp with h2 | h2
      · omega
      · exact h2
    have hlen : (splice c (s, e)).length = c.length - (e - s) :=
      splice_length (le_of_lt hse) hec
    have hbound' : ∀ p ∈ rest, p.2 ≤ (splice c (s, e)).length := by
      intro p hp
      rw [hlen]
      have := hrest p hp
      omega
    rw [List.foldl_cons, ih (splice c (s, e)) hsort2 hdis2
      (fun p hp => hstrict p (List.mem_cons_of_mem _ hp)) hbound', hlen]
    simp only [List.map_cons, List.sum_cons]
    omega

/-- **C6**: when a file's matched declarations are exactly the spans
`V ++ D` (violations and promoted duplicates), the rewritten content's
length is the original length minus the total length of the deleted
spans. -/
theorem C6_length_conservation :
    ∀ (content : Chars) (V D : List (Nat × Nat)),
      (V ++ D).Perm ((fileMatches content).map spanOf) →
      (applyDeletions content (V ++ D)).length =
        content.length - ((V ++ D).map (fun p => p.2 - p.1)).sum := by
  intro content V D hperm
  have hsym : ∀ {x y : Nat × Nat}, disjointSpan x y → disjointSpan y x := by
    intro x y h
    unfold disjointSpan at *
    tauto
  have hstrict : ∀ p ∈ V ++ D, p.1 < p.2 := by
    intro p hp
    obtain ⟨m, hm, rfl⟩ := List.mem_map.mp (hperm.mem_iff.mp hp)
    exact (fileMatches_bounds m hm).1
  have hbound : ∀ p ∈ V ++ D, p.2 ≤ content.length := by
    intro p hp
    obtain ⟨m, hm, rfl⟩ := List.mem_map.mp (hperm.mem_iff.mp hp)
    exact (fileMatches_bounds m hm).2
  have hdis : List.Pairwise disjointSpan (V ++ D) :=
    (List.Perm.pairwise_iff hsym hperm).mpr
      (fileMatches_span_pairwise content)
  have hperm2 := sortSpansDesc_perm (V ++ D)
  have hdis2 : List.Pairwise disjointSpan (sortSpansDesc (V ++ D)) :=
    (List.Perm.pairwise_iff hsym hperm2).mpr hdis
  unfold applyDeletions
  rw [foldl_splice_length _ _ (sortSpansDesc_sorted _) hdis2
    (fun p hp => hstrict p (hperm2.mem_iff.mp hp))
    (fun p hp => hbound p (hperm2.mem_iff.mp hp))]
  congr 1
  exact (hperm2.map (fun p => p.2 - p.1)).sum_eq

/-- Witness for C6: deleting the single matched span of `blockW` leaves
exactly 0 characters. -/
theorem C6_witness :
    (applyDeletions blockW ([] ++ [(0, blockW.length)])).length =
      blockW.length - (([] ++ [(0, blockW.length)]).map
        (fun p : Nat × Nat => p.2 - p.1)).sum :=
  C6_length_conservation blockW [] [(0, blockW.length)] (by decide)

/-! ### Catalog aggregation -/

theorem taggedLocs_cons (p : Chars × List StructMatch)
    (l : List (Chars × List StructMatch)) :
    taggedLocs (p :: l) =
      p.2.map (fun m => (p.1, m)) ++ taggedLocs l := by
  simp [taggedLocs]

theorem taggedLocs_addLoc (locs : List (Chars × List StructMatch))
    (k : Chars) (v : StructMatch) :
    (taggedLocs (addLoc locs k v)).Perm ((k, v) :: taggedLocs locs) := by
  induction locs with
  | nil => simp [addLoc, taggedLocs]
  | cons p rest ih =>
    obtain ⟨k', vs⟩ := p
    rw [addLoc]
    split
    · next heq =>
      subst heq
      rw [taggedLocs_cons, taggedLocs_cons]
      simp only [List.map_append, List.map_cons, List.map_nil,
        List.append_assoc, List.singleton_append]
      exact List.perm_middle
    · rw [taggedLocs_cons, taggedLocs_cons]
      exact (((ih).append_left _).trans List.perm_middle)

theorem foldOccs_spec :
    ∀ (l : List (Chars × StructMatch)) (st : ScanState),
      (taggedLocs ((l.foldl classifyStep st).typeLocations)).Perm
        (taggedLocs st.typeLocations ++
          l.filter (fun o => headUpper o.1)) ∧
      (l.foldl classifyStep st).lowercaseMatches =
        st.lowercaseMatches ++
          (l.filter (fun o => headUpper o.1 = false)).map Prod.snd ∧
      (l.foldl classifyStep st).fileContents = st.fileContents := by
  intro l
  induction l with
  | nil => intro st; simp
  | cons o t ih =>
    intro st
    rw [List.foldl_cons]
    obtain ⟨ihT, ihL, ihC⟩ := ih (classifyStep st o)
    by_cases hup : headUpper o.1 = true
    · have hstep : classifyStep st o =
          { st with typeLocations := addLoc st.typeLocations o.1 o.2 } := by
        rw [classifyStep, if_pos hup]
      refine ⟨?_, ?_, ?_⟩
      · refine ihT.trans ?_
        rw [hstep]
        simp only [List.filter_cons, hup, if_pos]
        refine ((taggedLocs_addLoc _ _ _).append_right _).trans ?_
        have : ((o.1, o.2) : Chars × StructMatch) = o := rfl
        rw [this, List.cons_append]
        exact (List.perm_middle).symm
      · rw [ihL, hstep]
        simp only [List.filter_cons, hup]
        rfl
      · rw [ihC, hstep]
    · have hup' : headUpper o.1 = false := by
        revert hup
        cases headUpper o.1 <;> simp
      have hstep : classifyStep st o =
          { st with lowercaseMatches := st.lowercaseMatches ++ [o.2] } := by
        rw [classifyStep, if_neg (by rw [hup']; exact Bool.false_ne_true)]
      refine ⟨?_, ?_, ?_⟩
      · refine ihT.trans ?_
        rw [hstep]
        simp only [List.filter_cons, hup']
        rfl
      · rw [ihL, hstep]
        simp only [List.filter_cons, hup']
        simp
      · rw [ihC, hstep]

theorem foldFiles_spec :
    ∀ (fl : List (Chars × Chars)) (st : ScanState),
      (taggedLocs ((fl.foldl (fun st p => processFile st p.1 p.2)
          st).typeLocations)).Perm
        (taggedLocs st.typeLocations ++
          fl.flatMap (fun p =>
            (fileOccs p.1 p.2).filter (fun o => headUpper o.1))) ∧
      (fl.foldl (fun st p => processFile st p.1 p.2) st).lowercaseMatches =
        st.lowercaseMatches ++
          fl.flatMap (fun p => ((fileOccs p.1 p.2).filter
            (fun o => headUpper o.1 = false)).map Prod.snd) ∧
      (fl.foldl (fun st p => processFile st p.1 p.2) st).fileContents =
        st.fileContents ++ fl := by
  intro fl
  induction fl with
  | nil => intro st; simp
  | cons q t ih =>
    intro st
    rw [List.foldl_cons]
    obtain ⟨ihT, ihL, ihC⟩ := ih (processFile st q.1 q.2)
    have hp : processFile st q.1 q.2 =
        (fileOccs q.1 q.2).foldl classifyStep
          { st with fileContents := st.fileContents ++ [(q.1, q.2)] } := rfl
    obtain ⟨hT, hL, hC⟩ := foldOccs_spec (fileOccs q.1 q.2)
      { st with fileContents := st.fileContents ++ [(q.1, q.2)] }
    refine ⟨?_, ?_, ?_⟩
    · refine ihT.trans ?_
      rw [List.flatMap_cons, ← List.append_assoc]
      refine List.Perm.append_right _ ?_
      rw [hp]
      exact hT
    · rw [ihL, hp, hL]
      simp [List.flatMap_cons]
    · rw [ihC, hp, hC]
      simp

/-- **C7**: the Catalog partitions the matched declarations exactly: the
multiset of name-tagged occurrences in `promotable` is precisely the
matched occurrences whose declared name starts with an uppercase letter,
`violations` is exactly (and in order) the matched occurrences whose
name does not, and membership is decided solely by
`headUpper` of the declared name — so every occurrence lands in exactly
one of the two, never both, never twice. -/
theorem C7_naming_partition :
    ∀ (files : List (Chars × Chars)),
      (taggedLocs (scanRustFiles files).typeLocations).Perm
        ((files.filter (fun p => isRs p.1)).flatMap (fun p =>
          (fileOccs p.1 p.2).filter (fun o => headUpper o.1))) ∧
      (scanRustFiles files).lowercaseMatches =
        (files.filter (fun p => isRs p.1)).flatMap (fun p =>
          ((fileOccs p.1 p.2).filter
            (fun o => headUpper o.1 = false)).map Prod.snd) ∧
      (∀ q ∈ taggedLocs (scanRustFiles files).typeLocations,
        headUpper q.1 = true) := by
  intro files
  obtain ⟨hT, hL, -⟩ := foldFiles_spec (files.filter (fun p => isRs p.1))
    emptyScan
  have hT' := hT
  rw [show taggedLocs emptyScan.typeLocations = [] from rfl,
    List.nil_append] at hT'
  have hL' := hL
  rw [show emptyScan.lowercaseMatches = [] from rfl,
    List.nil_append] at hL'
  refine ⟨hT', hL', ?_⟩
  intro q hq
  have := hT'.mem_iff.mp hq
  obtain ⟨p, -, hmem⟩ := List.mem_flatMap.mp this
  exact (List.mem_filter.mp hmem).2

/-! ### C2: the threshold rule -/

/-- **C2 (amended)**: a catalog entry qualifies for promotion iff its
summed usage is at least the threshold; a zero-usage entry is not
promoted at the default threshold 1, and is promoted exactly when the
threshold is ≤ 0 (e.g. also at the negative threshold −1, not only at
0 — see the counterexample). -/
theorem C2_threshold_rule :
    ∀ (files : List (Chars × Chars)) (t : Int) (nm : Chars)
      (ms : List StructMatch),
      (nm, ms) ∈ (scanRustFiles files).typeLocations →
      (((nm, ms) ∈ frequentTypes (scanRustFiles files).typeLocations t ↔
          t ≤ sumUsage ms) ∧
        (sumUsage ms = 0 →
          ((nm, ms) ∉ frequentTypes (scanRustFiles files).typeLocations 1 ∧
            ((nm, ms) ∈ frequentTypes (scanRustFiles files).typeLocations t ↔
              t ≤ 0)))) := by
  intro files t nm ms hmem
  have hiff : ∀ u : Int,
      ((nm, ms) ∈ frequentTypes (scanRustFiles files).typeLocations u ↔
        u ≤ sumUsage ms) := by
    intro u
    unfold frequentTypes
    rw [List.mem_filter]
    simp [hmem]
  refine ⟨hiff t, ?_⟩
  intro hz
  constructor
  · rw [hiff 1, hz]
    omega
  · rw [hiff t, hz]

/-- Witness for C2: the zero-usage `Widget` entry of a one-file
directory, at threshold 5. -/
theorem C2_witness :
    (((lit "Widget", [⟨lit "a.rs", blockW, 0, blockW.length, 0⟩]) ∈
        frequentTypes
          (scanRustFiles [(lit "a.rs", blockW)]).typeLocations 5 ↔
        (5 : Int) ≤ sumUsage [⟨lit "a.rs", blockW, 0, blockW.length, 0⟩]) ∧
      (sumUsage [(⟨lit "a.rs", blockW, 0, blockW.length, 0⟩ : StructMatch)] = 0 →
        ((lit "Widget", [⟨lit "a.rs", blockW, 0, blockW.length, 0⟩]) ∉
            frequentTypes
              (scanRustFiles [(lit "a.rs", blockW)]).typeLocations 1 ∧
          ((lit "Widget", [⟨lit "a.rs", blockW, 0, blockW.length, 0⟩]) ∈
              frequentTypes
                (scanRustFiles [(lit "a.rs", blockW)]).typeLocations 5 ↔
            (5 : Int) ≤ 0)))) :=
  C2_threshold_rule [(lit "a.rs", blockW)] 5 (lit "Widget")
    [⟨lit "a.rs", blockW, 0, blockW.length, 0⟩] (by decide)

/-! ### C1: idempotence, amended -/

/-- **C1 (amended)**: a second run with the same threshold is a no-op
provided that, on the output of the first run, no type's summed usage
meets the threshold and no violations remain — then the Deletion Plan
is empty, nothing is appended, and no file is written.  (Without that
proviso the second run can delete qualifying declarations from the
shared module — see the counterexample.) -/
theorem C1_idempotent_when_steady :
    ∀ (fs : List (Chars × Chars)) (t : Int) (fs' : List (Chars × Chars)),
      runMain fs t = (0, fs') →
      frequentTypes (scanRustFiles fs').typeLocations t = [] →
      (scanRustFiles fs').lowercaseMatches = [] →
      runMain fs' t = (0, fs') := by
  intro fs t fs' _ hfreq hlow
  rw [runMain]
  rw [printSummaryResult]
  simp [hfreq, hlow]

/-- Witness for C1: one file declaring `Widget` and using it once; the
first run promotes `Widget` into `common.rs` and strips the
declaration, after which a second run at the same threshold changes
nothing. -/
theorem C1_witness :
    runMain (runMain [(lit "a.rs", blockWU)] 1).2 1 =
      (0, (runMain [(lit "a.rs", blockWU)] 1).2) :=
  C1_idempotent_when_steady [(lit "a.rs", blockWU)] 1
    (runMain [(lit "a.rs", blockWU)] 1).2 (by decide) (by decide) (by decide)

/-! ### C4: the shared module writer -/

theorem insertByName_perm (x : Chars × List StructMatch)
    (l : List (Chars × List StructMatch)) :
    (insertByName x l).Perm (x :: l) := by
  induction l with
  | nil => exact List.Perm.refl _
  | cons y t ih =>
    rw [insertByName]
    split
    · exact ((ih.cons y).trans (List.Perm.swap x y t))
    · exact List.Perm.refl _

theorem sortByName_perm (l : List (Chars × List StructMatch)) :
    (sortByName l).Perm l := by
  induction l with
  | nil => exact List.Perm.refl _
  | cons x t ih =>
    exact (insertByName_perm x (sortByName t)).trans (ih.cons x)

theorem joinNl_eq :
    ∀ (mid : List Chars) (x z : Chars),
      joinNl ([x] ++ mid ++ [z]) =
        x ++ (mid.flatMap (fun b => '\n' :: b)) ++ ('\n' :: z) := by
  intro mid
  induction mid with
  | nil =>
    intro x z
    simp [joinNl, List.intersperse, lit]
  | cons m mid' ih =>
    intro x z
    have h1 : ([x] ++ (m :: mid') ++ [z]) = x :: (([m] ++ mid' ++ [z])) := by
      simp
    rw [h1]
    have h2 : joinNl (x :: ([m] ++ mid' ++ [z])) =
        x ++ ('\n' :: joinNl ([m] ++ mid' ++ [z])) := by
      have hcons : ∃ y ys, [m] ++ mid' ++ [z] = y :: ys := ⟨m, mid' ++ [z], rfl⟩
      obtain ⟨y, ys, hys⟩ := hcons
      rw [hys]
      simp [joinNl, List.intersperse_cons₂, lit]
    rw [h2, ih m z]
    simp

theorem rstripNl_spec (s : Chars) :
    s = rstripNl s ++ List.replicate (trailingNl s) '\n' := by
  have hrepl : (s.reverse.takeWhile (fun c => c = '\n')) =
      List.replicate (trailingNl s) '\n' := by
    rw [trailingNl]
    apply List.eq_replicate_of_mem
    intro b hb
    have := List.mem_takeWhile_imp hb
    exact of_decide_eq_true this
  calc s = s.reverse.reverse := (List.reverse_reverse s).symm
    _ = ((s.reverse.takeWhile (fun c => c = '\n')) ++
          (s.reverse.dropWhile (fun c => c = '\n'))).reverse := by
          rw [List.takeWhile_append_dropWhile]
    _ = rstripNl s ++ (s.reverse.takeWhile (fun c => c = '\n')).reverse := by
          rw [List.reverse_append]
          rfl
    _ = rstripNl s ++ List.replicate (trailingNl s) '\n' := by
          rw [hrepl, List.reverse_replicate]

theorem newPieces_head_shape {names : List Chars}
    {dups : List (Chars × List StructMatch)}
    (hsh : ∀ p ∈ dups, ∀ m ∈ p.2, (rstripNl m.content).take 2 = lit "\n\n")
    {b : Chars} (hb : b ∈ newPieces names dups) :
    b.take 2 = lit "\n\n" := by
  obtain ⟨p, hp, heq⟩ := List.mem_filterMap.mp hb
  have hp' : p ∈ dups := (sortByName_perm dups).mem_iff.mp hp
  split at heq
  · exact absurd heq (by simp)
  · split at heq
    · exact absurd heq (by simp)
    · next m t hm =>
      obtain rfl := Option.some.inj heq
      exact hsh p hp' m (by rw [hm]; exact List.mem_cons_self _ _)

theorem prefixHelper {x tail : Chars} {k : Nat} (hk : k ≤ 2)
    (h : tail = lit "\n\n" ∨ ∃ u, tail = '\n' :: '\n' :: '\n' :: u) :
    ∃ tl, x ++ tail = (x ++ List.replicate k '\n') ++ tl := by
  rcases h with h | ⟨u, h⟩
  · refine ⟨List.replicate (2 - k) '\n', ?_⟩
    rw [h, List.append_assoc, ← List.replicate_add]
    have h2 : k + (2 - k) = 2 := by omega
    rw [h2]
    congr 1
  · refine ⟨List.replicate (3 - k) '\n' ++ u, ?_⟩
    rw [h, List.append_assoc]
    congr 1
    rw [← List.append_assoc, ← List.replicate_add]
    have h3 : k + (3 - k) = 3 := by omega
    rw [h3]
    rfl

/-- **C4 (amended)**: for every prior shared-module content and promoted
set (with distinct names, nonempty occurrence lists, and
matcher-produced occurrence texts, which always start with a blank
line): the writer's output is the prior content minus its trailing
newlines, followed by the new pieces — the first occurrence's text of
each promoted name not in the module's extracted name set, in sorted
order, each preceded by a newline — and a final blank line; the
appended names are pairwise distinct and none of them is an
already-present name; the prior content minus trailing newlines is
always a prefix of the output, and the prior content itself is a prefix
whenever it carries at most two trailing newlines (the shape
tool-generated content has).  Trailing newlines beyond two are
normalized away, and name uniqueness is guaranteed for the appended
declarations only — both weakenings forced by the counterexample. -/
theorem C4_writer_append_only :
    ∀ (e : Chars) (dups : List (Chars × List StructMatch)),
      (dups.map Prod.fst).Nodup →
      (∀ p ∈ dups, ∀ m ∈ p.2, (rstripNl m.content).take 2 = lit "\n\n") →
      (generateCommonContent e (findallNames e) dups =
        rstripNl e ++
          ((newPieces (findallNames e) dups).flatMap (fun b => '\n' :: b)) ++
          lit "\n\n") ∧
      (newNames (findallNames e) dups).Nodup ∧
      (∀ n ∈ newNames (findallNames e) dups,
        (findallNames e).contains n = false) ∧
      (∃ tl, generateCommonContent e (findallNames e) dups =
        rstripNl e ++ tl) ∧
      (trailingNl e ≤ 2 →
        ∃ tl, generateCommonContent e (findallNames e) dups = e ++ tl) := by
  intro e dups hnd hsh
  have hshape : generateCommonContent e (findallNames e) dups =
      rstripNl e ++
        ((newPieces (findallNames e) dups).flatMap (fun b => '\n' :: b)) ++
        lit "\n\n" := by
    rw [generateCommonContent, joinNl_eq]
    rfl
  refine ⟨hshape, ?_, ?_, ⟨_, by rw [hshape, List.append_assoc]⟩, ?_⟩
  · -- distinct appended names
    have h1 : ((sortByName dups).map Prod.fst).Nodup :=
      ((sortByName_perm dups).map Prod.fst).nodup_iff.mpr hnd
    exact List.Nodup.sublist
      (List.Sublist.map Prod.fst (List.filter_sublist _)) h1
  · -- no appended name is already present
    intro n hn
    obtain ⟨p, hp, rfl⟩ := List.mem_map.mp hn
    exact of_decide_eq_true (List.mem_filter.mp hp).2
  · -- prior content preserved when it has at most two trailing newlines
    intro htr
    have htail : ((newPieces (findallNames e) dups).flatMap
        (fun b => '\n' :: b)) ++ lit "\n\n" = lit "\n\n" ∨
        ∃ u, ((newPieces (findallNames e) dups).flatMap
          (fun b => '\n' :: b)) ++ lit "\n\n" = '\n' :: '\n' :: '\n' :: u := by
      rcases hnp : newPieces (findallNames e) dups with _ | ⟨b, rest⟩
      · left
        simp
      · right
        have hb : b ∈ newPieces (findallNames e) dups := by
          rw [hnp]
          exact List.mem_cons_self _ _
        have hb2 : b.take 2 = lit "\n\n" := newPieces_head_shape hsh hb
        have hbdec : b = '\n' :: '\n' :: b.drop 2 := by
          conv_lhs => rw [← List.take_append_drop 2 b]
          rw [hb2]
          rfl
        refine ⟨b.drop 2 ++ (rest.flatMap (fun x => '\n' :: x)) ++
          lit "\n\n", ?_⟩
        rw [List.flatMap_cons]
        conv_lhs => rw [hbdec]
        simp [List.append_assoc]
    obtain ⟨tl, htl⟩ := prefixHelper htr htail
    refine ⟨tl, ?_⟩
    rw [hshape, List.append_assoc, htl, ← rstripNl_spec e]

/-- Witness for C4: prior module `blockW` (declaring `Widget`, one
trailing newline), promoting a fresh `Gadget`. -/
theorem C4_witness :
    (generateCommonContent blockW (findallNames blockW)
        [(lit "Gadget", [occG])] =
      rstripNl blockW ++
        ((newPieces (findallNames blockW) [(lit "Gadget", [occG])]).flatMap
          (fun b => '\n' :: b)) ++ lit "\n\n") ∧
    (newNames (findallNames blockW) [(lit "Gadget", [occG])]).Nodup ∧
    (∀ n ∈ newNames (findallNames blockW) [(lit "Gadget", [occG])],
      (findallNames blockW).contains n = false) ∧
    (∃ tl, generateCommonContent blockW (findallNames blockW)
        [(lit "Gadget", [occG])] = rstripNl blockW ++ tl) ∧
    (trailingNl blockW ≤ 2 →
      ∃ tl, generateCommonContent blockW (findallNames blockW)
        [(lit "Gadget", [occG])] = blockW ++ tl) :=
  C4_writer_append_only blockW [(lit "Gadget", [occG])]
    (by decide) (by decide)

/-! ### C8: usage attribution -/

theorem contAfter_decomp {r a : Chars} {nc : Nat}
    (h : contAfter r a = some nc) :
    ∃ ws2 rest, r.drop a.length = ws2 ++ ',' :: rest ∧
      (∀ ch ∈ ws2, isSpaceChar ch = true) ∧
      nc = a.length + ws2.length + 1 := by
  unfold contAfter at h
  split at h
  · next c rest hdw =>
    split at h
    · next hc =>
      subst hc
      obtain rfl := Option.some.inj h
      refine ⟨(r.drop a.length).takeWhile isSpaceChar, rest, ?_, ?_, rfl⟩
      · conv_lhs => rw [← List.takeWhile_append_dropWhile
          (p := isSpaceChar) (l := r.drop a.length)]
        rw [hdw]
      · intro ch hch
        exact List.mem_takeWhile_imp hch
    · exact absurd h (by simp)
  · exact absurd h (by simp)

theorem altCand1_decomp {r a : Chars} (h : altCand1 r = some a) :
    r = a ++ r.drop a.length ∧ a ≠ [] ∧ ∀ ch ∈ a, altChar ch := by
  unfold altCand1 at h
  split at h
  · exact absurd h (by simp)
  · next hne =>
    obtain rfl := Option.some.inj h
    have hpre : r = r.takeWhile isWordChar ++ r.dropWhile isWordChar :=
      (List.takeWhile_append_dropWhile _ _).symm
    refine ⟨?_, by simpa [List.isEmpty_iff] using hne, ?_⟩
    · conv_lhs => rw [hpre]
      congr 1
      rw [show r.drop (r.takeWhile isWordChar).length =
        (r.takeWhile isWordChar ++ r.dropWhile isWordChar).drop
          (r.takeWhile isWordChar).length from by rw [← hpre]]
      rw [List.drop_left]
    · intro ch hch
      exact Or.inl (List.mem_takeWhile_imp hch)

theorem altCand2_decomp {r a : Chars} (h : altCand2 r = some a) :
    r = a ++ r.drop a.length ∧ a ≠ [] ∧ ∀ ch ∈ a, altChar ch := by
  unfold altCand2 at h
  split at h
  · exact absurd h (by simp)
  · next t ht =>
    have hrt := stripPre_some ht
    split at h
    · exact absurd h (by simp)
    · split at h
      · next c tl hdw =>
        split at h
        · next hc =>
          subst hc
          obtain rfl := Option.some.inj h
          have hpre : t = t.takeWhile isWordChar ++ ('>' :: tl) := by
            conv_lhs => rw [← List.takeWhile_append_dropWhile
              (p := isWordChar) (l := t)]
            rw [hdw]
          have hr : r = (lit "Option<" ++ t.takeWhile isWordChar ++ ['>']) ++
              tl := by
            rw [hrt]
            conv_lhs => rw [hpre]
            simp
          refine ⟨?_, by simp, ?_⟩
          · conv_lhs => rw [hr]
            congr 1
            rw [show r.drop (lit "Option<" ++ t.takeWhile isWordChar ++
                ['>']).length = ((lit "Option<" ++ t.takeWhile isWordChar ++
                ['>']) ++ tl).drop (lit "Option<" ++ t.takeWhile isWordChar ++
                ['>']).length from by rw [← hr]]
            rw [List.drop_left]
          · intro ch hch
            rcases List.mem_append.mp hch with hch | hch
            · rcases List.mem_append.mp hch with hch | hch
              · have hall : ∀ ch ∈ lit "Option<", altChar ch := by decide
                exact hall ch hch
              · exact Or.inl (List.mem_takeWhile_imp hch)
            · rcases List.mem_singleton.mp hch with rfl
              exact Or.inr (Or.inr rfl)
        · exact absurd h (by simp)
      · exact absurd h (by simp)

theorem altCand3_decomp {r a : Chars} (h : altCand3 r = some a) :
    r = a ++ r.drop a.length ∧ a ≠ [] ∧ ∀ ch ∈ a, altChar ch := by
  unfold altCand3 at h
  split at h
  · exact absurd h (by simp)
  · next t ht =>
    have hrt := stripPre_some ht
    split at h
    · exact absurd h (by simp)
    · split at h
      · next c tl hdw =>
        split at h
        · next hc =>
          subst hc
          obtain rfl := Option.some.inj h
          have hpre : t = t.takeWhile isWordChar ++ ('>' :: tl) := by
            conv_lhs => rw [← List.takeWhile_append_dropWhile
              (p := isWordChar) (l := t)]
            rw [hdw]
          have hr : r = (lit "Vec<" ++ t.takeWhile isWordChar ++ ['>']) ++
              tl := by
            rw [hrt]
            conv_lhs => rw [hpre]
            simp
          refine ⟨?_, by simp, ?_⟩
          · conv_lhs => rw [hr]
            congr 1
            rw [show r.drop (lit "Vec<" ++ t.takeWhile isWordChar ++
                ['>']).length = ((lit "Vec<" ++ t.takeWhile isWordChar ++
                ['>']) ++ tl).drop (lit "Vec<" ++ t.takeWhile isWordChar ++
                ['>']).length from by rw [← hr]]
            rw [List.drop_left]
          · intro ch hch
            rcases List.mem_append.mp hch with hch | hch
            · rcases List.mem_append.mp hch with hch | hch
              · have hall : ∀ ch ∈ lit "Vec<", altChar ch := by decide
                exact hall ch hch
              · exact Or.inl (List.mem_takeWhile_imp hch)
            · rcases List.mem_singleton.mp hch with rfl
              exact Or.inr (Or.inr rfl)
        · exact absurd h (by simp)
      · exact absurd h (by simp)

theorem altCand4_decomp {r a : Chars} (h : altCand4 r = some a) :
    r = a ++ r.drop a.length ∧ a ≠ [] ∧ ∀ ch ∈ a, altChar ch := by
  unfold altCand4 at h
  split at h
  · exact absurd h (by simp)
  · next t ht =>
    have hrt := stripPre_some ht
    split at h
    · exact absurd h (by simp)
    · split at h
      · next c1 c2 tl hdw =>
        split at h
        · next hc1 =>
          split at h
          · next hc2 =>
            subst hc1
            subst hc2
            obtain rfl := Option.some.inj h
            have hpre : t = t.takeWhile isWordChar ++ ('>' :: '>' :: tl) := by
              conv_lhs => rw [← List.takeWhile_append_dropWhile
                (p := isWordChar) (l := t)]
              rw [hdw]
            have hr : r = (lit "Option<Vec<" ++ t.takeWhile isWordChar ++
                ['>', '>']) ++ tl := by
              rw [hrt]
              conv_lhs => rw [hpre]
              simp
            refine ⟨?_, by simp, ?_⟩
            · conv_lhs => rw [hr]
              congr 1
              rw [show r.drop (lit "Option<Vec<" ++ t.takeWhile isWordChar ++
                  ['>', '>']).length = ((lit "Option<Vec<" ++
                  t.takeWhile isWordChar ++ ['>', '>']) ++ tl).drop
                  (lit "Option<Vec<" ++ t.takeWhile isWordChar ++
                  ['>', '>']).length from by rw [← hr]]
              rw [List.drop_left]
            · intro ch hch
              rcases List.mem_append.mp hch with hch | hch
              · rcases List.mem_append.mp hch with hch | hch
                · have hall : ∀ ch ∈ lit "Option<Vec<", altChar ch := by
                    decide
                  exact hall ch hch
                · exact Or.inl (List.mem_takeWhile_imp hch)
              · rcases List.mem_cons.mp hch with rfl | hch
                · exact Or.inr (Or.inr rfl)
                · rcases List.mem_singleton.mp hch with rfl
                  exact Or.inr (Or.inr rfl)
          · exact absurd h (by simp)
        · exact absurd h (by simp)
      · exact absurd h (by simp)

theorem altWithCont_decomp {r : Chars} {cand : Option Chars} {nc : Nat}
    {alt : Chars} (h : altWithCont r cand = some (nc, alt)) :
    cand = some alt ∧ contAfter r alt = some nc := by
  unfold altWithCont at h
  split at h
  · exact absurd h (by simp)
  · next a =>
    split at h
    · exact absurd h (by simp)
    · next n hc =>
      obtain ⟨h1, h2⟩ := Prod.ext_iff.mp (Option.some.inj h)
      dsimp only at h1 h2
      subst h1
      subst h2
      exact ⟨rfl, hc⟩

theorem usageTail_decomp {s : Chars} {l : Nat} {alt : Chars}
    (h : usageTail s = some (l, alt)) :
    ∃ ws ws2 rest, s = ws ++ alt ++ ws2 ++ ',' :: rest ∧
      l = ws.length + alt.length + ws2.length + 1 ∧
      (∀ ch ∈ ws, isSpaceChar ch = true) ∧
      (∀ ch ∈ ws2, isSpaceChar ch = true) ∧
      alt ≠ [] ∧ (∀ ch ∈ alt, altChar ch) := by
  unfold usageTail at h
  simp only [Option.map_eq_some'] at h
  obtain ⟨⟨nc, alt'⟩, hres, heq⟩ := h
  obtain ⟨h1, h2⟩ := Prod.ext_iff.mp heq
  dsimp only at h1 h2
  subst h2
  -- which alternative succeeded
  have hcand : ∃ cnd, altWithCont (s.dropWhile isSpaceChar) cnd =
      some (nc, alt') ∧
      ((s.dropWhile isSpaceChar) = alt' ++
        (s.dropWhile isSpaceChar).drop alt'.length ∧ alt' ≠ [] ∧
        ∀ ch ∈ alt', altChar ch) := by
    split at hres
    · next p h1c =>
      obtain rfl := Option.some.inj hres
      obtain ⟨hc, -⟩ := altWithCont_decomp h1c
      obtain ⟨hd1, hd2, hd3⟩ := altCand1_decomp hc
      exact ⟨_, h1c, hd1, hd2, hd3⟩
    · split at hres
      · next p h2c =>
        obtain rfl := Option.some.inj hres
        obtain ⟨hc, -⟩ := altWithCont_decomp h2c
        obtain ⟨hd1, hd2, hd3⟩ := altCand2_decomp hc
        exact ⟨_, h2c, hd1, hd2, hd3⟩
      · split at hres
        · next p h3c =>
          obtain rfl := Option.some.inj hres
          obtain ⟨hc, -⟩ := altWithCont_decomp h3c
          obtain ⟨hd1, hd2, hd3⟩ := altCand3_decomp hc
          exact ⟨_, h3c, hd1, hd2, hd3⟩
        · obtain ⟨hc, -⟩ := altWithCont_decomp hres
          obtain ⟨hd1, hd2, hd3⟩ := altCand4_decomp hc
          exact ⟨_, hres, hd1, hd2, hd3⟩
  obtain ⟨cnd, hwc, hpre, hne, hchars⟩ := hcand
  obtain ⟨-, hca⟩ := altWithCont_decomp hwc
  obtain ⟨ws2, rest, hdrop, hws2, hnc⟩ := contAfter_decomp hca
  refine ⟨s.takeWhile isSpaceChar, ws2, rest, ?_, ?_, ?_, hws2, hne, hchars⟩
  · conv_lhs => rw [← List.takeWhile_append_dropWhile
      (p := isSpaceChar) (l := s)]
    have hdw : (List.dropWhile isSpaceChar s) =
        alt' ++ (ws2 ++ ',' :: rest) := by
      rw [hpre, hdrop]
    rw [hdw]
    simp [List.append_assoc]
  · rw [← h1, hnc]
    omega
  · intro ch hch
    exact List.mem_takeWhile_imp hch

theorem mem_of_lt {α : Type} {w z q a : List α} {x : α}
    (h : w ++ z = q ++ x :: a) (hlen : q.length < w.length) : x ∈ w := by
  induction w generalizing q with
  | nil => simp at hlen
  | cons c w' ih =>
    cases q with
    | nil =>
      rw [List.nil_append, List.cons_append] at h
      injection h with h1 h2
      subst h1
      exact List.mem_cons_self _ _
    | cons c' q' =>
      rw [List.cons_append, List.cons_append] at h
      injection h with hh ht
      have hlen' : q'.length < w'.length := by
        rw [List.length_cons, List.length_cons] at hlen
        omega
      exact List.mem_cons_of_mem _ (ih ht hlen')

theorem mem_of_between {α : Type} {p w z q a : List α} {x : α}
    (h : p ++ (w ++ z) = q ++ x :: a) (h1 : p.length ≤ q.length)
    (h2 : q.length < p.length + w.length) : x ∈ w := by
  induction p generalizing q with
  | nil =>
    rw [List.nil_append] at h
    exact mem_of_lt h (by simpa using h2)
  | cons c p' ih =>
    cases q with
    | nil => simp at h1
    | cons c' q' =>
      rw [List.cons_append, List.cons_append] at h
      injection h with hh ht
      refine ih ht ?_ ?_
      · rw [List.length_cons] at h1
        rw [List.length_cons] at h1
        omega
      · rw [List.length_cons] at h2
        rw [List.length_cons] at h2
        omega

/-- A usage-pattern tail that matches right after a colon occurring
before the field line `foo: Bar,` always ends before that line: its
span cannot contain the line's own colon. -/
theorem usageTail_target_bound {m post : Chars} {l : Nat} {alt : Chars}
    (h : usageTail (m ++ (lit "foo: Bar," ++ post)) = some (l, alt)) :
    l ≤ m.length := by
  obtain ⟨ws, ws2, rest, hdec, hlen, hws, hws2, hne, hchars⟩ :=
    usageTail_decomp h
  by_contra hcon
  push_neg at hcon
  have hUchar : ':' ∉ ws ++ alt ++ ws2 := by
    intro hmem
    rcases List.mem_append.mp hmem with hmem | hmem
    · rcases List.mem_append.mp hmem with hmem | hmem
      · exact absurd (hws _ hmem) (by decide)
      · exact absurd (hchars _ hmem) (by decide)
    · exact absurd (hws2 _ hmem) (by decide)
  have hsplit : lit "foo: Bar," ++ post =
      lit "foo" ++ (':' :: (lit " Bar," ++ post)) := rfl
  have hS : m ++ (lit "foo" ++ (':' :: (lit " Bar," ++ post))) =
      (ws ++ alt ++ ws2) ++ ',' :: rest := by
    rw [← hsplit]
    rw [hdec]
  have hUlen : (ws ++ alt ++ ws2).length = l - 1 := by
    simp only [List.length_append]
    omega
  have hflen : (lit "foo").length = 3 := rfl
  rcases lt_trichotomy (l - 1) (m.length + 3) with hcase | hcase | hcase
  · -- the match's comma would sit inside "foo"
    have : ',' ∈ lit "foo" := by
      refine mem_of_between hS ?_ ?_
      · rw [hUlen]
        omega
      · rw [hUlen, hflen]
        omega
    exact absurd this (by decide)
  · -- the match's comma would sit exactly on the line's colon
    have hS2 : (m ++ lit "foo") ++ (':' :: (lit " Bar," ++ post)) =
        (ws ++ alt ++ ws2) ++ ',' :: rest := by
      rw [← hS]
      simp [List.append_assoc]
    have hleq : (m ++ lit "foo").length = (ws ++ alt ++ ws2).length := by
      rw [hUlen, List.length_append, hflen]
      omega
    have := (List.append_inj hS2 hleq).2
    injection this with hcc hrest
    exact absurd hcc (by decide)
  · -- the line's colon would sit inside the match's span
    have : ':' ∈ ws ++ alt ++ ws2 := by
      have hS3 : (ws ++ alt ++ ws2) ++ (',' :: rest) =
          (m ++ lit "foo") ++ ':' :: (lit " Bar," ++ post) := by
        rw [← hS]
        simp [List.append_assoc]
      refine mem_of_lt hS3 ?_
      rw [hUlen, List.length_append, hflen]
      omega
    exact absurd this hUchar

theorem usageGo_comma :
    ∀ {s : Chars} {n : Nat} {alt : Chars},
      usageGo s = some (n, alt) →
      ∃ u r', s = u ++ ',' :: r' ∧ u.length + 1 = n := by
  intro s
  induction s with
  | nil => intro n alt h; simp [usageGo] at h
  | cons c t ih =>
    intro n alt h
    rw [usageGo] at h
    split at h
    · next hc =>
      split at h
      · next l a htail =>
        obtain ⟨h1, h2⟩ := Prod.ext_iff.mp (Option.some.inj h)
        dsimp only at h1 h2
        obtain ⟨ws, ws2, rest, hdec, hlen, -, -, -, -⟩ :=
          usageTail_decomp htail
        refine ⟨c :: (ws ++ a ++ ws2), rest, ?_, ?_⟩
        · rw [List.cons_append]
          congr 1
        · simp only [List.length_cons, List.length_append]
          omega
      · simp only [Option.map_eq_some'] at h
        obtain ⟨⟨n', a'⟩, hgo, heq⟩ := h
        obtain ⟨h1, h2⟩ := Prod.ext_iff.mp heq
        dsimp only at h1 h2
        obtain ⟨u, r', hu, hun⟩ := ih hgo
        refine ⟨c :: u, r', by rw [List.cons_append, ← hu], ?_⟩
        rw [List.length_cons]
        omega
    · split at h
      · exact absurd h (by simp)
      · simp only [Option.map_eq_some'] at h
        obtain ⟨⟨n', a'⟩, hgo, heq⟩ := h
        obtain ⟨h1, h2⟩ := Prod.ext_iff.mp heq
        dsimp only at h1 h2
        obtain ⟨u, r', hu, hun⟩ := ih hgo
        refine ⟨c :: u, r', by rw [List.cons_append, ← hu], ?_⟩
        rw [List.length_cons]
        omega

theorem usageGo_at_target (post : Chars) :
    usageGo (lit "foo: Bar," ++ post) = some (9, lit "Bar") := rfl

/-- Lazy scanning through arbitrary leading text: any usage match that
starts before the field line `foo: Bar,` either stops before the line
or captures exactly `Bar`. -/
theorem usageGo_through :
    ∀ (mid post : Chars),
      usageGo (mid ++ (lit "foo: Bar," ++ post)) = none ∨
      ∃ n alt, usageGo (mid ++ (lit "foo: Bar," ++ post)) = some (n, alt) ∧
        (n ≤ mid.length ∨ alt = lit "Bar") := by
  intro mid
  induction mid with
  | nil =>
    intro post
    right
    refine ⟨9, lit "Bar", ?_, Or.inr rfl⟩
    rw [List.nil_append]
    exact usageGo_at_target post
  | cons c m ih =>
    intro post
    rw [List.cons_append]
    by_cases hc : c = ':'
    · subst hc
      rcases htail : usageTail (m ++ (lit "foo: Bar," ++ post)) with _ | ⟨l, a⟩
      · have hstep : usageGo (':' :: (m ++ (lit "foo: Bar," ++ post))) =
            (usageGo (m ++ (lit "foo: Bar," ++ post))).map
              (fun p => (p.1 + 1, p.2)) := by
          rw [usageGo, if_pos rfl, htail]
        rcases ih post with hnone | ⟨n, a', hsome, hcase⟩
        · left
          rw [hstep, hnone]
          rfl
        · right
          refine ⟨n + 1, a', by rw [hstep, hsome]; rfl, ?_⟩
          rcases hcase with hn | hbar
          · left
            rw [List.length_cons]
            omega
          · exact Or.inr hbar
      · have hstep : usageGo (':' :: (m ++ (lit "foo: Bar," ++ post))) =
            some (1 + l, a) := by
          rw [usageGo, if_pos rfl, htail]
        right
        refine ⟨1 + l, a, hstep, Or.inl ?_⟩
        have := usageTail_target_bound htail
        rw [List.length_cons]
        omega
    · by_cases hs : c = '/'
      · left
        subst hs
        rw [usageGo, if_neg (by decide), if_pos rfl]
      · have hstep : usageGo (c :: (m ++ (lit "foo: Bar," ++ post))) =
            (usageGo (m ++ (lit "foo: Bar," ++ post))).map
              (fun p => (p.1 + 1, p.2)) := by
          rw [usageGo, if_neg hc, if_neg hs]
        rcases ih post with hnone | ⟨n, a', hsome, hcase⟩
        · left
          rw [hstep, hnone]
          rfl
        · right
          refine ⟨n + 1, a', by rw [hstep, hsome]; rfl, ?_⟩
          rcases hcase with hn | hbar
          · left
            rw [List.length_cons]
            omega
          · exact Or.inr hbar

theorem lit_target_length : (lit "foo: Bar,").length = 9 := rfl

theorem extractType_bar : extractType (lit "Bar") = some (lit "Bar") := rfl

theorem usageScan_cons_none {f : Nat} {c : Char} {t : Chars}
    (h : usageGo (c :: t) = none) :
    usageScan (f + 1) (c :: t) true = usageScan f t (decide (c = '\n')) := by
  rw [usageScan, if_pos rfl, h]

theorem usageScan_cons_false {f : Nat} {c : Char} {t : Chars} :
    usageScan (f + 1) (c :: t) false = usageScan f t (decide (c = '\n')) := by
  rw [usageScan]
  exact if_neg (by simp)

theorem usageScan_cons_some_ext {f : Nat} {c : Char} {t : Chars} {n : Nat}
    {alt bb : Chars} (h : usageGo (c :: t) = some (n, alt))
    (he : extractType alt = some bb) :
    usageScan (f + 1) (c :: t) true =
      bb :: usageScan f ((c :: t).drop n) false := by
  rw [usageScan, if_pos rfl, h]
  show (match extractType alt with
        | some b => b :: usageScan f ((c :: t).drop n) false
        | none => usageScan f ((c :: t).drop n) false) = _
  rw [he]

theorem usageScan_cons_some_noext {f : Nat} {c : Char} {t : Chars} {n : Nat}
    {alt : Chars} (h : usageGo (c :: t) = some (n, alt))
    (he : extractType alt = none) :
    usageScan (f + 1) (c :: t) true =
      usageScan f ((c :: t).drop n) false := by
  rw [usageScan, if_pos rfl, h]
  show (match extractType alt with
        | some b => b :: usageScan f ((c :: t).drop n) false
        | none => usageScan f ((c :: t).drop n) false) = _
  rw [he]

/-- The `finditer` loop of the Usage Counter records `Bar` whenever the
scanned text contains the field line `foo: Bar,` starting at a line
start that the scan can reach. -/
theorem usageScan_has_bar :
    ∀ (fuel : Nat) (s : Chars) (b : Bool) (mid post : Chars),
      s = mid ++ (lit "foo: Bar," ++ post) →
      s.length < fuel →
      ((b = true ∧ mid = []) ∨ (∃ mid0, mid = mid0 ++ ['\n'])) →
      lit "Bar" ∈ usageScan fuel s b := by
  intro fuel
  induction fuel with
  | zero =>
    intro s b mid post hs hlen hline
    exact absurd hlen (by omega)
  | succ f ih =>
    intro s b mid post hs hlen hline
    rcases s with _ | ⟨c, t⟩
    · exfalso
      have := congrArg List.length hs
      rw [List.length_append, List.length_append, lit_target_length] at this
      have h0 : ([] : Chars).length = 0 := rfl
      omega
    · by_cases hb : b = true
      · subst hb
        rcases usageGo_through mid post with hnone | ⟨n, alt, hsome, hcase⟩
        · rw [← hs] at hnone
          rw [usageScan_cons_none hnone]
          -- no match here, so mid is nonempty and we step into it
          have hmidne : mid ≠ [] := by
            intro hmid
            subst hmid
            rw [List.nil_append] at hs
            rw [hs, usageGo_at_target post] at hnone
            exact absurd hnone (by simp)
          rcases hmid : mid with _ | ⟨c', m'⟩
          · exact absurd hmid hmidne
          · subst hmid
            rw [List.cons_append] at hs
            injection hs with hch ht
            apply ih t (decide (c = '\n')) m' post ht
              (by rw [List.length_cons] at hlen; omega)
            rcases hline with ⟨-, habs⟩ | ⟨mid0, hm0⟩
            · exact absurd habs (by simp)
            · rcases mid0 with _ | ⟨d, mid0'⟩
              · rw [List.nil_append] at hm0
                injection hm0 with h1 h2
                subst h2
                left
                refine ⟨?_, rfl⟩
                rw [hch, h1]
                decide
              · rw [List.cons_append] at hm0
                injection hm0 with h1 h2
                exact Or.inr ⟨mid0', h2⟩
        · rw [← hs] at hsome
          rcases hcase with hn | hbar
          · -- the match stops inside `mid`
            obtain ⟨u, r', hu, hun⟩ := usageGo_comma hsome
            rcases hline with ⟨-, hmid⟩ | ⟨mid0, hm0⟩
            · exfalso
              subst hmid
              have h0 : ([] : Chars).length = 0 := rfl
              omega
            · have hnlt : n < mid.length := by
                rcases Nat.lt_or_ge n mid.length with h | h
                · exact h
                · exfalso
                  have hneq : n = mid.length := by omega
                  -- the comma ending the match would be mid's final newline
                  have hcmp : u ++ ',' :: r' =
                      mid0 ++ '\n' :: (lit "foo: Bar," ++ post) := by
                    rw [← hu, hs, hm0]
                    simp [List.append_assoc]
                  have hul : u.length = mid0.length := by
                    have hlm := congrArg List.length hm0
                    rw [List.length_append] at hlm
                    simp at hlm
                    omega
                  have := (List.append_inj hcmp hul).2
                  injection this with hcc hrest2
                  exact absurd hcc (by decide)
              have hdrop : (c :: t).drop n =
                  mid.drop n ++ (lit "foo: Bar," ++ post) := by
                rw [hs, List.drop_append_eq_append_drop]
                have : n - mid.length = 0 := by omega
                rw [this, List.drop_zero]
              have hmid' : ∃ mid0', mid.drop n = mid0' ++ ['\n'] := by
                refine ⟨mid0.drop n, ?_⟩
                rw [hm0, List.drop_append_eq_append_drop]
                have hlm : mid.length = mid0.length + 1 := by
                  rw [hm0, List.length_append]
                  rfl
                have : n - mid0.length = 0 := by omega
                rw [this, List.drop_zero]
              have hfuel : ((c :: t).drop n).length < f := by
                rw [List.length_drop, List.length_cons]
                rw [List.length_cons] at hlen
                omega
              rcases hext : extractType alt with _ | bb
              · rw [usageScan_cons_some_noext hsome hext]
                exact ih _ false _ post hdrop hfuel (Or.inr hmid')
              · rw [usageScan_cons_some_ext hsome hext]
                exact List.mem_cons_of_mem _
                  (ih _ false _ post hdrop hfuel (Or.inr hmid'))
          · -- the match captures Bar itself
            subst hbar
            rw [usageScan_cons_some_ext hsome extractType_bar]
            exact List.mem_cons_self _ _
      · have hb' : b = false := by
          revert hb
          cases b <;> simp
        subst hb'
        rw [usageScan_cons_false]
        have hmidne : mid ≠ [] := by
          intro hmid
          rcases hline with ⟨hb', -⟩ | ⟨mid0, hm0⟩
          · exact absurd hb' (by simp)
          · subst hmid
            exact absurd hm0.symm (by simp)
        rcases hmid : mid with _ | ⟨c', m'⟩
        · exact absurd hmid hmidne
        · subst hmid
          rw [List.cons_append] at hs
          injection hs with hch ht
          apply ih t (decide (c = '\n')) m' post ht
            (by rw [List.length_cons] at hlen; omega)
          rcases hline with ⟨-, habs⟩ | ⟨mid0, hm0⟩
          · exact absurd habs (by simp)
          · rcases mid0 with _ | ⟨d, mid0'⟩
            · rw [List.nil_append] at hm0
              injection hm0 with h1 h2
              subst h2
              left
              refine ⟨?_, rfl⟩
              rw [hch, h1]
              decide
            · rw [List.cons_append] at hm0
              injection hm0 with h1 h2
              exact Or.inr ⟨mid0', h2⟩

/-- **C8**: for any file whose text contains the field line `foo: Bar,`
(at a line start) and a matched declaration named `Bar`, the occurrence
of `Bar` built for that file records a usage count of at least 1. -/
theorem C8_usage_attribution :
    ∀ (fn content pre post nm : Chars) (occ : StructMatch),
      content = pre ++ (lit "foo: Bar," ++ post) →
      (pre = [] ∨ ∃ pre0, pre = pre0 ++ ['\n']) →
      (nm, occ) ∈ fileOccs fn content →
      nm = lit "Bar" →
      1 ≤ occ.usage_count := by
  intro fn content pre post nm occ hc hline hmem hnm
  obtain ⟨rm, hrm, heq⟩ := List.mem_map.mp hmem
  obtain ⟨h1, h2⟩ := Prod.ext_iff.mp heq
  dsimp only at h1 h2
  subst h2
  dsimp only
  rw [h1, hnm]
  rw [show headUpper (lit "Bar") = true from rfl, if_pos rfl]
  have hmem2 : lit "Bar" ∈ typeUsages content := by
    unfold typeUsages
    refine usageScan_has_bar (content.length + 1) content true pre post hc
      (by omega) ?_
    rcases hline with h | h
    · exact Or.inl ⟨rfl, h⟩
    · exact Or.inr h
  exact List.count_pos_iff.mpr hmem2

/-- Witness for C8: the file `blockBar`, whose body contains the line
`foo: Bar,` and declares `Bar`. -/
theorem C8_witness :
    1 ≤ (⟨lit "a.rs", blockBar, 0, blockBar.length, 1⟩ :
      StructMatch).usage_count :=
  C8_usage_attribution (lit "a.rs") blockBar
    (lit "\n\n// Bar ...\n" ++ hdr5 ++ lit "pub struct Bar \x7b\n")
    (lit "\n\t\tOk(())\n\t\x7d\n\x7d\n") (lit "Bar")
    ⟨lit "a.rs", blockBar, 0, blockBar.length, 1⟩
    (by decide)
    (Or.inr ⟨lit "\n\n// Bar ...\n" ++ hdr5 ++ lit "pub struct Bar \x7b",
      by decide⟩)
    (by decide) rfl

/-! ### The rewrite engine's view of the file system (for C9) -/

theorem fsRead_fsWrite_self :
    ∀ (fs : List (Chars × Chars)) (n v : Chars),
      fsRead (fsWrite fs n v) n = some v := by
  intro fs n v
  induction fs with
  | nil =>
    show (if n = n then some v else fsRead [] n) = some v
    rw [if_pos rfl]
  | cons e t ih =>
    obtain ⟨k, c⟩ := e
    show fsRead (if k = n then (k, v) :: t else (k, c) :: fsWrite t n v) n = _
    by_cases hk : k = n
    · rw [if_pos hk]
      show (if k = n then some v else fsRead t n) = _
      rw [if_pos hk]
    · rw [if_neg hk]
      show (if k = n then some c else fsRead (fsWrite t n v) n) = _
      rw [if_neg hk]
      exact ih

theorem fsRead_fsWrite_ne :
    ∀ (fs : List (Chars × Chars)) (k n v : Chars), k ≠ n →
      fsRead (fsWrite fs k v) n = fsRead fs n := by
  intro fs k n v hk
  induction fs with
  | nil =>
    show (if k = n then some v else fsRead [] n) = _
    rw [if_neg hk]
  | cons e t ih =>
    obtain ⟨k', c⟩ := e
    show fsRead (if k' = k then (k', v) :: t else (k', c) :: fsWrite t k v) n = _
    by_cases hk' : k' = k
    · rw [if_pos hk']
      show (if k' = n then some v else fsRead t n) = _
      rw [if_neg (hk' ▸ hk)]
      show _ = (if k' = n then some c else fsRead t n)
      rw [if_neg (hk' ▸ hk)]
    · rw [if_neg hk']
      show (if k' = n then some c else fsRead (fsWrite t k v) n) = _
      by_cases h2 : k' = n
      · rw [if_pos h2]
        show _ = (if k' = n then some c else fsRead t n)
        rw [if_pos h2]
      · rw [if_neg h2, ih]
        show _ = (if k' = n then some c else fsRead t n)
        rw [if_neg h2]

theorem posLookup_addPos :
    ∀ (m : List (Chars × List (Nat × Nat))) (fn' : Chars) (p : Nat × Nat)
      (fn : Chars),
      posLookup (addPos m fn' p) fn =
        if fn' = fn then posLookup m fn ++ [p] else posLookup m fn := by
  intro m fn' p fn
  induction m with
  | nil =>
    show (if fn' = fn then [p] else posLookup [] fn) = _
    by_cases h : fn' = fn
    · rw [if_pos h, if_pos h]
      rfl
    · rw [if_neg h, if_neg h]
  | cons e rest ih =>
    obtain ⟨k, vs⟩ := e
    show posLookup
        (if k = fn' then (k, vs ++ [p]) :: rest
         else (k, vs) :: addPos rest fn' p) fn = _
    by_cases hk : k = fn'
    · rw [if_pos hk]
      show (if k = fn then vs ++ [p] else posLookup rest fn) = _
      by_cases hf : fn' = fn
      · rw [if_pos (hk.trans hf), if_pos hf]
        show _ = (if k = fn then vs else posLookup rest fn) ++ [p]
        rw [if_pos (hk.trans hf)]
      · rw [if_neg (hk ▸ hf), if_neg hf]
        show _ = if k = fn then vs else posLookup rest fn
        rw [if_neg (hk ▸ hf)]
    · rw [if_neg hk]
      show (if k = fn then vs else posLookup (addPos rest fn' p) fn) = _
      by_cases h2 : k = fn
      · rw [if_pos h2]
        by_cases hf : fn' = fn
        · rw [if_pos hf]
          show _ = (if k = fn then vs else posLookup rest fn) ++ [p]
          rw [if_pos h2]
          exact absurd (hf.trans h2.symm).symm hk
        · rw [if_neg hf]
          show _ = if k = fn then vs else posLookup rest fn
          rw [if_pos h2]
      · rw [if_neg h2, ih]
        by_cases hf : fn' = fn
        · rw [if_pos hf, if_pos hf]
          show _ = (if k = fn then vs else posLookup rest fn) ++ [p]
          rw [if_neg h2]
        · rw [if_neg hf, if_neg hf]
          show _ = if k = fn then vs else posLookup rest fn
          rw [if_neg h2]

theorem posLookup_foldOccs :
    ∀ (occs : List StructMatch) (m : List (Chars × List (Nat × Nat)))
      (fn : Chars),
      posLookup
        (occs.foldl
          (fun m occ => addPos m occ.filename (occ.start_pos, occ.end_pos)) m)
        fn =
      posLookup m fn ++
        ((occs.filter (fun occ => decide (occ.filename = fn))).map
          (fun occ => (occ.start_pos, occ.end_pos))) := by
  intro occs
  induction occs with
  | nil =>
    intro m fn
    simp
  | cons occ t ih =>
    intro m fn
    rw [List.foldl_cons, ih, posLookup_addPos]
    by_cases h : occ.filename = fn
    · rw [if_pos h]
      rw [List.filter_cons_of_pos (by simp [h]), List.map_cons]
      simp [List.append_assoc]
    · rw [if_neg h]
      rw [List.filter_cons_of_neg (by simp [h])]

theorem posLookup_foldDups :
    ∀ (dups : List (Chars × List StructMatch))
      (m : List (Chars × List (Nat × Nat))) (fn : Chars),
      posLookup
        (dups.foldl
          (fun m e => e.2.foldl
            (fun m occ => addPos m occ.filename (occ.start_pos, occ.end_pos))
            m) m)
        fn =
      posLookup m fn ++
        (((dups.flatMap (fun p => p.2)).filter
            (fun occ => decide (occ.filename = fn))).map
          (fun occ => (occ.start_pos, occ.end_pos))) := by
  intro dups
  induction dups with
  | nil =>
    intro m fn
    simp
  | cons e rest ih =>
    intro m fn
    rw [List.foldl_cons, ih, posLookup_foldOccs]
    rw [List.flatMap_cons, List.filter_append, List.map_append,
      List.append_assoc]

theorem posLookup_filePositions
    (dups : List (Chars × List StructMatch)) (lows : List StructMatch)
    (fn : Chars) :
    posLookup (filePositions dups lows) fn =
      (((dups.flatMap (fun p => p.2) ++ lows).filter
          (fun occ => decide (occ.filename = fn))).map
        (fun occ => (occ.start_pos, occ.end_pos))) := by
  show posLookup
      (lows.foldl
        (fun m occ => addPos m occ.filename (occ.start_pos, occ.end_pos))
        (dups.foldl
          (fun m e => e.2.foldl
            (fun m occ => addPos m occ.filename (occ.start_pos, occ.end_pos))
            m) [])) fn = _
  rw [posLookup_foldOccs, posLookup_foldDups]
  simp only [List.filter_append, List.map_append, List.append_assoc]
  rw [show posLookup ([] : List (Chars × List (Nat × Nat))) fn = []
    from rfl, List.nil_append]

theorem mem_posLookup_filePositions
    {dups : List (Chars × List StructMatch)} {lows : List StructMatch}
    {nm : Chars} {ms : List StructMatch} {occ : StructMatch}
    (h1 : (nm, ms) ∈ dups) (h2 : occ ∈ ms) :
    (occ.start_pos, occ.end_pos) ∈
      posLookup (filePositions dups lows) occ.filename := by
  rw [posLookup_filePositions]
  refine List.mem_map.mpr ⟨occ, List.mem_filter.mpr ⟨?_, by simp⟩, rfl⟩
  exact List.mem_append_left _ (List.mem_flatMap.mpr ⟨(nm, ms), h1, h2⟩)

theorem addPos_keys_mem :
    ∀ (m : List (Chars × List (Nat × Nat))) (fn : Chars) (p : Nat × Nat)
      (x : Chars),
      x ∈ (addPos m fn p).map Prod.fst → x ∈ m.map Prod.fst ∨ x = fn := by
  intro m fn p
  induction m with
  | nil =>
    intro x hx
    simp [addPos] at hx
    exact Or.inr hx
  | cons e rest ih =>
    intro x hx
    obtain ⟨k, vs⟩ := e
    by_cases hk : k = fn
    · rw [show addPos ((k, vs) :: rest) fn p = (k, vs ++ [p]) :: rest from
        if_pos hk] at hx
      simp only [List.map_cons, List.mem_cons] at hx ⊢
      exact Or.inl hx
    · rw [show addPos ((k, vs) :: rest) fn p = (k, vs) :: addPos rest fn p from
        if_neg hk] at hx
      simp only [List.map_cons, List.mem_cons] at hx ⊢
      rcases hx with h | h
      · exact Or.inl (Or.inl h)
      · rcases ih x h with h2 | h2
        · exact Or.inl (Or.inr h2)
        · exact Or.inr h2

theorem addPos_keys_nodup :
    ∀ (m : List (Chars × List (Nat × Nat))) (fn : Chars) (p : Nat × Nat),
      (m.map Prod.fst).Nodup → ((addPos m fn p).map Prod.fst).Nodup := by
  intro m fn p
  induction m with
  | nil =>
    intro _
    simp [addPos]
  | cons e rest ih =>
    intro hnd
    obtain ⟨k, vs⟩ := e
    simp only [List.map_cons, List.nodup_cons] at hnd
    by_cases hk : k = fn
    · rw [show addPos ((k, vs) :: rest) fn p = (k, vs ++ [p]) :: rest from
        if_pos hk]
      simp only [List.map_cons, List.nodup_cons]
      exact hnd
    · rw [show addPos ((k, vs) :: rest) fn p = (k, vs) :: addPos rest fn p from
        if_neg hk]
      simp only [List.map_cons, List.nodup_cons]
      refine ⟨?_, ih hnd.2⟩
      intro hx
      rcases addPos_keys_mem rest fn p k hx with h | h
      · exact hnd.1 h
      · exact hk h

theorem foldPos_keys_nodup (occs : List StructMatch) :
    ∀ (m : List (Chars × List (Nat × Nat))), (m.map Prod.fst).Nodup →
      ((occs.foldl
          (fun m occ => addPos m occ.filename (occ.start_pos, occ.end_pos))
          m).map Prod.fst).Nodup := by
  induction occs with
  | nil => intro m h; exact h
  | cons occ t ih =>
    intro m h
    rw [List.foldl_cons]
    exact ih _ (addPos_keys_nodup m _ _ h)

theorem foldDups_keys_nodup (dups : List (Chars × List StructMatch)) :
    ∀ (m : List (Chars × List (Nat × Nat))), (m.map Prod.fst).Nodup →
      ((dups.foldl
          (fun m e => e.2.foldl
            (fun m occ => addPos m occ.filename (occ.start_pos, occ.end_pos))
            m) m).map Prod.fst).Nodup := by
  induction dups with
  | nil => intro m h; exact h
  | cons e rest ih =>
    intro m h
    rw [List.foldl_cons]
    exact ih _ (foldPos_keys_nodup e.2 m h)

theorem filePositions_keys_nodup
    (dups : List (Chars × List StructMatch)) (lows : List StructMatch) :
    ((filePositions dups lows).map Prod.fst).Nodup := by
  show ((lows.foldl
      (fun m occ => addPos m occ.filename (occ.start_pos, occ.end_pos))
      (dups.foldl
        (fun m e => e.2.foldl
          (fun m occ => addPos m occ.filename (occ.start_pos, occ.end_pos))
          m) [])).map Prod.fst).Nodup
  exact foldPos_keys_nodup lows _ (foldDups_keys_nodup dups [] (by simp))

theorem posLookup_mem :
    ∀ (m : List (Chars × List (Nat × Nat))) (fn : Chars),
      posLookup m fn ≠ [] → (fn, posLookup m fn) ∈ m := by
  intro m fn
  induction m with
  | nil => intro h; exact absurd rfl h
  | cons e rest ih =>
    intro h
    obtain ⟨k, vs⟩ := e
    by_cases hk : k = fn
    · subst hk
      have he : posLookup ((k, vs) :: rest) k = vs := by
        show (if k = k then vs else posLookup rest k) = vs
        rw [if_pos rfl]
      rw [he]
      exact List.mem_cons_self _ _
    · have he : posLookup ((k, vs) :: rest) fn = posLookup rest fn := by
        show (if k = fn then vs else posLookup rest fn) = _
        rw [if_neg hk]
      rw [he] at h ⊢
      exact List.mem_cons_of_mem _ (ih h)

theorem assoc_split {l : List (Chars × List (Nat × Nat))} {k : Chars}
    {v : List (Nat × Nat)} (hm : (k, v) ∈ l)
    (hnd : (l.map Prod.fst).Nodup) :
    ∃ pre post, l = pre ++ (k, v) :: post ∧ ∀ e ∈ post, e.1 ≠ k := by
  obtain ⟨pre, post, rfl⟩ := List.append_of_mem hm
  refine ⟨pre, post, rfl, ?_⟩
  intro e he heq
  rw [List.map_append, List.map_cons] at hnd
  have h2 := (List.nodup_append.mp hnd).2.1
  have h3 := (List.nodup_cons.mp h2).1
  exact h3 (List.mem_map.mpr ⟨e, he, heq⟩)

theorem removeDuplicates_eq (fs fileContents : List (Chars × Chars))
    (dups : List (Chars × List StructMatch)) (lows : List StructMatch) :
    removeDuplicates fs fileContents dups lows =
      (filePositions dups lows).foldl (rdStep fileContents) fs := rfl

theorem rdStep_frame (fileContents fs : List (Chars × Chars))
    (e : Chars × List (Nat × Nat)) (fn : Chars) (h : e.1 ≠ fn) :
    fsRead (rdStep fileContents fs e) fn = fsRead fs fn := by
  show fsRead
      (if e.2.isEmpty then fs else
       match fsRead fileContents e.1 with
       | none => fs
       | some content =>
         if applyDeletions content e.2 = content then fs
         else fsWrite fs e.1 (applyDeletions content e.2)) fn = _
  by_cases h1 : e.2.isEmpty
  · rw [if_pos h1]
  · rw [if_neg h1]
    rcases h2 : fsRead fileContents e.1 with _ | content
    · rfl
    · by_cases h3 : applyDeletions content e.2 = content
      · show fsRead (if applyDeletions content e.2 = content then fs
          else fsWrite fs e.1 (applyDeletions content e.2)) fn = _
        rw [if_pos h3]
      · show fsRead (if applyDeletions content e.2 = content then fs
          else fsWrite fs e.1 (applyDeletions content e.2)) fn = _
        rw [if_neg h3]
        exact fsRead_fsWrite_ne fs e.1 fn _ h

theorem rdFold_frame :
    ∀ (entries : List (Chars × List (Nat × Nat)))
      (fileContents fs : List (Chars × Chars)) (fn : Chars),
      (∀ e ∈ entries, e.1 ≠ fn) →
      fsRead (entries.foldl (rdStep fileContents) fs) fn = fsRead fs fn := by
  intro entries
  induction entries with
  | nil => intro _ fs _ _; rfl
  | cons e t ih =>
    intro fileContents fs fn h
    rw [List.foldl_cons,
      ih fileContents _ fn (fun x hx => h x (List.mem_cons_of_mem _ hx)),
      rdStep_frame fileContents fs e fn (h e (List.mem_cons_self _ _))]

theorem rdStep_write {fileContents fs : List (Chars × Chars)} {fn : Chars}
    {P : List (Nat × Nat)} {c : Chars}
    (hP : P.isEmpty = false) (hc : fsRead fileContents fn = some c)
    (hne : applyDeletions c P ≠ c) :
    rdStep fileContents fs (fn, P) = fsWrite fs fn (applyDeletions c P) := by
  show (if P.isEmpty then fs else
      match fsRead fileContents fn with
      | none => fs
      | some content =>
        if applyDeletions content P = content then fs
        else fsWrite fs fn (applyDeletions content P)) = _
  rw [hP, if_neg (by simp), hc]
  show (if applyDeletions c P = c then fs
      else fsWrite fs fn (applyDeletions c P)) = _
  rw [if_neg hne]

theorem removeDuplicates_read {fs fileContents : List (Chars × Chars)}
    {dups : List (Chars × List StructMatch)} {lows : List StructMatch}
    {fn c : Chars}
    (hc : fsRead fileContents fn = some c)
    (hP : posLookup (filePositions dups lows) fn ≠ [])
    (hne : applyDeletions c (posLookup (filePositions dups lows) fn) ≠ c) :
    fsRead (removeDuplicates fs fileContents dups lows) fn =
      some (applyDeletions c (posLookup (filePositions dups lows) fn)) := by
  have hPe : (posLookup (filePositions dups lows) fn).isEmpty = false := by
    cases hq : posLookup (filePositions dups lows) fn with
    | nil => exact absurd hq hP
    | cons a l => rfl
  obtain ⟨pre, post, hl, hpost⟩ :=
    assoc_split (posLookup_mem _ fn hP) (filePositions_keys_nodup dups lows)
  rw [removeDuplicates_eq]
  conv_lhs => rw [hl]
  rw [List.foldl_append, List.foldl_cons,
    rdFold_frame post fileContents _ fn hpost,
    rdStep_write hPe hc hne]
  exact fsRead_fsWrite_self _ _ _

theorem runMain_eq_of_freq {fs : List (Chars × Chars)} {t : Int}
    {F : List (Chars × List StructMatch)}
    (h : printSummaryResult (scanRustFiles fs).typeLocations t = some F) :
    runMain fs t =
      (0, removeDuplicates (generateCommonFile fs F commonName)
        (scanRustFiles fs).fileContents F
        (scanRustFiles fs).lowercaseMatches) := by
  show (if (printSummaryResult (scanRustFiles fs).typeLocations t).isSome
        || !(scanRustFiles fs).lowercaseMatches.isEmpty then
      match printSummaryResult (scanRustFiles fs).typeLocations t with
      | some f =>
        (0, removeDuplicates (generateCommonFile fs f commonName)
          (scanRustFiles fs).fileContents f
          (scanRustFiles fs).lowercaseMatches)
      | none => (1, fs)
    else (0, fs)) = _
  rw [h]
  simp only [Option.isSome_some, Bool.true_or, if_true]

/-- **C9** (implicit claim): when the shared module itself contains, at
scan time, a declaration that qualifies for promotion in the run, the
run still exits 0, the declaration's span is in `common.rs`'s entry of
the deletion plan, and `remove_duplicates` rewrites `common.rs` as its
*scan-time* content with the planned spans spliced out — overwriting
the merged content `generate_common_file` wrote earlier in the same
run (the final content is a function of the scan-time snapshot alone). -/
theorem C9_scan_time_clobber
    (fs : List (Chars × Chars)) (t : Int) (c nm : Chars)
    (ms : List StructMatch) (occ : StructMatch)
    (hc : fsRead (scanRustFiles fs).fileContents commonName = some c)
    (hF : (nm, ms) ∈ frequentTypes (scanRustFiles fs).typeLocations t)
    (hocc : occ ∈ ms)
    (hfn : occ.filename = commonName)
    (hch : applyDeletions c (posLookup (filePositions
        (frequentTypes (scanRustFiles fs).typeLocations t)
        (scanRustFiles fs).lowercaseMatches) commonName) ≠ c) :
    (runMain fs t).1 = 0 ∧
    (occ.start_pos, occ.end_pos) ∈ posLookup (filePositions
        (frequentTypes (scanRustFiles fs).typeLocations t)
        (scanRustFiles fs).lowercaseMatches) commonName ∧
    fsRead (runMain fs t).2 commonName =
      some (applyDeletions c (posLookup (filePositions
        (frequentTypes (scanRustFiles fs).typeLocations t)
        (scanRustFiles fs).lowercaseMatches) commonName)) := by
  have hne : (frequentTypes (scanRustFiles fs).typeLocations t).isEmpty
      = false := by
    cases hq : frequentTypes (scanRustFiles fs).typeLocations t with
    | nil => rw [hq] at hF; exact absurd hF (List.not_mem_nil _)
    | cons a l => rfl
  have hsome : printSummaryResult (scanRustFiles fs).typeLocations t =
      some (frequentTypes (scanRustFiles fs).typeLocations t) := by
    show (if (frequentTypes (scanRustFiles fs).typeLocations t).isEmpty
        then none
        else some (frequentTypes (scanRustFiles fs).typeLocations t)) = _
    rw [hne]
    simp
  have hmem : (occ.start_pos, occ.end_pos) ∈ posLookup (filePositions
      (frequentTypes (scanRustFiles fs).typeLocations t)
      (scanRustFiles fs).lowercaseMatches) commonName := by
    rw [← hfn]
    exact mem_posLookup_filePositions hF hocc
  have hP : posLookup (filePositions
      (frequentTypes (scanRustFiles fs).typeLocations t)
      (scanRustFiles fs).lowercaseMatches) commonName ≠ [] := by
    intro h
    rw [h] at hmem
    exact absurd hmem (List.not_mem_nil _)
  have hrun := runMain_eq_of_freq hsome
  refine ⟨by rw [hrun], hmem, ?_⟩
  rw [hrun]
  exact removeDuplicates_read hc hP hch

/-- Witness for C9: a directory whose only file is `common.rs` holding
the `Widget` block; at threshold 0 `Widget` qualifies, and the run
splices its own declaration back out of the module. -/
theorem C9_witness :
    (runMain [(commonName, blockW)] 0).1 = 0 ∧
    ((0 : Nat), blockW.length) ∈ posLookup (filePositions
        (frequentTypes (scanRustFiles [(commonName, blockW)]).typeLocations 0)
        (scanRustFiles [(commonName, blockW)]).lowercaseMatches) commonName ∧
    fsRead (runMain [(commonName, blockW)] 0).2 commonName =
      some (applyDeletions blockW (posLookup (filePositions
        (frequentTypes (scanRustFiles [(commonName, blockW)]).typeLocations 0)
        (scanRustFiles [(commonName, blockW)]).lowercaseMatches)
        commonName)) :=
  C9_scan_time_clobber [(commonName, blockW)] 0 blockW (lit "Widget")
    [⟨commonName, blockW, 0, blockW.length, 0⟩]
    ⟨commonName, blockW, 0, blockW.length, 0⟩
    (by decide) (by decide) (by decide) rfl (by decide)

end GenCommon
